import Mathlib

/-!
The file `dhctl/pkg/config/base.go`.

A shallow embedding of the configuration-ingestion code of `dhctl/pkg/config/base.go`
and the properties of its document splitter, router, remote fetcher and error dump.

Go strings and byte slices holding UTF-8 text are modelled as `List Char`, positions
count characters.  Library routines the file calls (`strings.TrimSpace`,
`strings.Split`, `strings.HasSuffix`, `regexp.Split`, `fmt.Sprintf`) are written out
after the Go standard library; code of the repository that lives in other packages
(`SchemaStore`, `MetaConfig.Prepare`, the kube client, `retry`, `log`) is a parameter
of the model.
-/

namespace Dhctl

/-! ## Text primitives -/

/-- Go `unicode.IsSpace`: the Latin-1 switch, then the `White_Space` table. -/
def IsSpace (r : Char) : Bool :=
  if r.toNat ≤ 0xFF then
    r == '\t' || r == '\n' || r == '\x0b' || r == '\x0c' || r == '\r' || r == ' ' ||
      r == '\u0085' || r == '\u00a0'
  else
    r.toNat == 0x1680 || (0x2000 ≤ r.toNat && r.toNat ≤ 0x200a) || r.toNat == 0x2028 ||
      r.toNat == 0x2029 || r.toNat == 0x202f || r.toNat == 0x205f || r.toNat == 0x3000

/-- Go `strings.TrimSpace`: all leading and trailing white space removed, as defined
by Unicode. -/
def TrimSpace (s : List Char) : List Char :=
  ((s.dropWhile IsSpace).reverse.dropWhile IsSpace).reverse

/-- Go `strings.Split(s, "\n")`: the substrings between the newlines; an input without
a newline (the empty one too) gives one substring. -/
def splitNewline : List Char → List (List Char)
  | [] => [[]]
  | c :: cs =>
    if c = '\n' then [] :: splitNewline cs
    else
      match splitNewline cs with
      | [] => [[c]]
      | l :: ls => (c :: l) :: ls

/-- Go `strings.HasSuffix`. -/
def HasSuffix (s suffix : String) : Bool :=
  decide (suffix.data.length ≤ s.data.length) &&
    s.data.drop (s.data.length - suffix.data.length) == suffix.data

/-! ## The regular expression of the splitter

`regexp.MustCompile` builds a leftmost-first (Perl-like) matcher: among the matches
that start leftmost it returns the one a backtracking search finds first.  The
matcher below is that backtracking search, for the operators the pattern uses. -/

/-- The Perl class `\s` of Go's regexp syntax: `[\t\n\f\r ]`. -/
def reSpace (c : Char) : Bool :=
  c == '\t' || c == '\n' || c == '\x0c' || c == '\r' || c == ' '

/-- Syntax trees of the patterns used here. -/
inductive Regex where
  /-- `^` without the multi-line flag: the beginning of the text -/
  | beginText
  /-- a literal character -/
  | char (c : Char)
  /-- greedy repetition `c*` of a character class -/
  | star (cls : Char → Bool)
  /-- concatenation -/
  | cat (r₁ r₂ : Regex)
  /-- alternation, the left branch preferred -/
  | alt (r₁ r₂ : Regex)

/-- Greedy star of a class: take one more character first, fall back to stopping. -/
def starRun (cls : Char → Bool) (k : Nat → List Char → Option Nat) :
    Nat → List Char → Option Nat
  | pos, [] => k pos []
  | pos, c :: cs =>
    if cls c then (starRun cls k (pos + 1) cs).or (k pos (c :: cs)) else k pos (c :: cs)

/-- Backtracking match of `re` at position `pos`, where `rest` is the text from `pos`
on and `k` continues with the position and text after the match. -/
def Regex.run : Regex → Nat → List Char → (Nat → List Char → Option Nat) → Option Nat
  | .beginText, pos, rest, k => if pos = 0 then k pos rest else none
  | .char _, _, [], _ => none
  | .char c, pos, d :: ds, k => if d = c then k (pos + 1) ds else none
  | .star cls, pos, rest, k => starRun cls k pos rest
  | .cat r₁ r₂, pos, rest, k => r₁.run pos rest (fun p r => r₂.run p r k)
  | .alt r₁ r₂, pos, rest, k => (r₁.run pos rest k).or (r₂.run pos rest k)

/-- End of the preferred match of `re` that starts exactly at `pos`. -/
def Regex.matchAt (re : Regex) (pos : Nat) (rest : List Char) : Option Nat :=
  re.run pos rest (fun e _ => some e)

/-- Leftmost match at or after `pos`: `(start, end)`. -/
def Regex.search (re : Regex) : Nat → List Char → Option (Nat × Nat)
  | pos, [] => (re.matchAt pos []).map (fun e => (pos, e))
  | pos, c :: cs =>
    match re.matchAt pos (c :: cs) with
    | some e => some (pos, e)
    | none => re.search (pos + 1) cs

/-- The loop of Go `(*Regexp).allMatches` with `n < 0`: successive non-overlapping
matches.  Every round moves `pos` forward and needs `pos ≤ len(s)`, so `len(s) + 1`
rounds of `fuel` cover the whole loop. -/
def allMatches (re : Regex) (s : List Char) : Nat → Nat → Option Nat → List (Nat × Nat)
  | 0, _, _ => []
  | fuel + 1, pos, prevMatchEnd =>
    if pos ≤ s.length then
      match re.search pos (s.drop pos) with
      | none => []
      | some (m0, m1) =>
        if m1 = pos then
          -- an empty match: not accepted right after the previous match
          if some m0 = prevMatchEnd then allMatches re s fuel (pos + 1) (some m1)
          else (m0, m1) :: allMatches re s fuel (pos + 1) (some m1)
        else (m0, m1) :: allMatches re s fuel m1 (some m1)
    else []

/-- The Go slice expression `s[beg:endPos]`. -/
def slice (s : List Char) (beg endPos : Nat) : List Char :=
  (s.drop beg).take (endPos - beg)

/-- The loop and the tail of Go `(*Regexp).Split`: the text between the matches. -/
def splitPieces (s : List Char) : List (Nat × Nat) → Nat → Nat → List (List Char)
  | [], beg, endPos => if endPos ≠ s.length then [s.drop beg] else []
  | (m0, m1) :: ms, beg, _ =>
    (if m1 ≠ 0 then [slice s beg m0] else []) ++ splitPieces s ms m1 m0

/-- Go `(*Regexp).Split(s, -1)` for a non-empty pattern. -/
def Regex.Split (re : Regex) (s : List Char) : List (List Char) :=
  if s.length = 0 then [[]]
  else splitPieces s (allMatches re s (s.length + 1) 0 none) 0 0

/-- The pattern `(?:^|\s*\n)---\s*` of ParseConfigFromData. -/
def separatorRe : Regex :=
  .cat (.alt .beginText (.cat (.star reSpace) (.char '\n')))
    (.cat (.char '-') (.cat (.char '-') (.cat (.char '-') (.star reSpace))))

/-- Lines 127-128 of ParseConfigFromData: the fragments `docs`. -/
def splitDocs (configData : List Char) : List (List Char) :=
  separatorRe.Split (TrimSpace configData)

/-- The documents the loop of ParseConfigFromData goes on with: every fragment
trimmed, the empty ones skipped (lines 131-135). -/
def documents (configData : List Char) : List (List Char) :=
  ((splitDocs configData).map TrimSpace).filter (fun doc => doc ≠ [])

/-! ## The line-numbered dump -/

/-- Go `fmt.Sprintf("%d\t%s\n", index+1, line)`. -/
def numberedLine (number : Nat) (line : List Char) : List Char :=
  Nat.toDigits 10 number ++ '\t' :: (line ++ ['\n'])

/-- The `for index, line := range manifestLines` loop writing into the builder. -/
def numerateLoop : List (List Char) → Nat → List Char → List Char
  | [], _, builder => builder
  | line :: manifestLines, index, builder =>
    numerateLoop manifestLines (index + 1) (builder ++ numberedLine (index + 1) line)

/-- The function `numerateManifestLines`. -/
def numerateManifestLines (manifest : List Char) : List Char :=
  numerateLoop (splitNewline manifest) 0 []

/-- Reading a dump back: the final newline and, in every line, the prefix up to and
including the first tab removed. -/
def stripNumbers (dump : List Char) : List Char :=
  List.intercalate ['\n']
    ((splitNewline dump).dropLast.map (fun l => (l.dropWhile (fun c => c != '\t')).drop 1))

/-! ## The aggregate and the collaborators of the parser -/

/-- A Go `error`, identified with its message (what `%v` prints). -/
abbrev GoError := List Char

/-- Go `map[string]json.RawMessage`; `none` is the nil map. -/
abbrev RawMap := Option (List (String × List Char))

/-- The index expression `m[key]` on a `RawMap`: the nil message when there is no
such key. -/
def RawMap.index (m : RawMap) (key : String) : List Char :=
  match m with
  | none => []
  | some entries => (entries.lookup key).getD []

/-- Modelled from the spec: the struct `MetaConfig` is declared outside this file; of
its fields the four document slots (the spec's `init`, `cluster`, `static`,
`provider`) are the ones this file assigns. -/
structure MetaConfig where
  InitClusterConfig : RawMap := none
  ClusterConfig : RawMap := none
  StaticClusterConfig : RawMap := none
  ProviderClusterConfig : RawMap := none
deriving DecidableEq, Repr

/-- Modelled from the spec: the struct `SchemaIndex` is declared outside this file; it
is the result of classification, and the field this file reads is the declared kind
of the document. -/
structure SchemaIndex where
  Kind : String
deriving DecidableEq, Repr

/-- Code this file calls and does not define.  `Validate` receives `&docData`, so it
returns the bytes it leaves there next to its result. -/
structure Deps where
  /-- `schemaStore.Validate(&docData)` -/
  Validate : List Char → List Char × Except GoError SchemaIndex
  /-- `yaml.Unmarshal(docData, &data)` into a `map[string]json.RawMessage` -/
  Unmarshal : List Char → Except GoError RawMap
  /-- `json.Unmarshal(raw, &clusterType)` into a string -/
  UnmarshalString : List Char → Except GoError String
  /-- `metaConfig.Prepare()` -/
  Prepare : MetaConfig → Except GoError MetaConfig
  /-- the error the retry loops return once the attempts are used up, made from the
  last error of the task (the spec's RetryExhaustedError) -/
  RetryExhausted : GoError → GoError

/-- What the parser does to its collaborators, in order. -/
inductive Event where
  | validate (doc : List Char)
  | unmarshal (docData : List Char)
  | route (kind : String) (data : RawMap)
  | prepare (metaConfig : MetaConfig)
  | get (ns name : String)
  | attempt
  | sleep (seconds : Nat)
deriving DecidableEq, Repr

/-! ## ParseConfigFromData -/

/-- The `switch` of ParseConfigFromData (lines 149-158). -/
def route (metaConfig : MetaConfig) (kind : String) (data : RawMap) : MetaConfig :=
  if kind = "InitConfiguration" then { metaConfig with InitClusterConfig := data }
  else if kind = "ClusterConfiguration" then { metaConfig with ClusterConfig := data }
  else if kind = "StaticClusterConfiguration" then
    { metaConfig with StaticClusterConfig := data }
  else if HasSuffix kind "ClusterConfiguration" then
    { metaConfig with ProviderClusterConfig := data }
  else metaConfig

/-- `fmt.Errorf("config validation: %v\ndata: \n%s\n", err, numerateManifestLines(docData))`. -/
def validationError (err : GoError) (docData : List Char) : GoError :=
  "config validation: ".data ++ err ++ "\ndata: \n".data ++
    numerateManifestLines docData ++ "\n".data

/-- `fmt.Errorf("config unmarshal: %v\ndata: \n%s\n", err, numerateManifestLines(docData))`. -/
def unmarshalError (err : GoError) (docData : List Char) : GoError :=
  "config unmarshal: ".data ++ err ++ "\ndata: \n".data ++
    numerateManifestLines docData ++ "\n".data

/-- The `for _, doc := range docs` loop (lines 131-159): the events, and the error
returned from inside the loop or the aggregate reached at its end. -/
def assemble (d : Deps) : List (List Char) → MetaConfig → List Event × Except GoError MetaConfig
  | [], metaConfig => ([], .ok metaConfig)
  | doc :: docs, metaConfig =>
    let doc := TrimSpace doc
    if doc = [] then assemble d docs metaConfig
    else
      match d.Validate doc with
      | (docData, .error err) => ([.validate doc], .error (validationError err docData))
      | (docData, .ok index) =>
        match d.Unmarshal docData with
        | .error err =>
          ([.validate doc, .unmarshal docData], .error (unmarshalError err docData))
        | .ok data =>
          let (events, result) := assemble d docs (route metaConfig index.Kind data)
          (.validate doc :: .unmarshal docData :: .route index.Kind data :: events, result)

/-- The function `ParseConfigFromData`. -/
def ParseConfigFromData (d : Deps) (configData : List Char) :
    List Event × Except GoError MetaConfig :=
  match assemble d (splitDocs configData) {} with
  | (events, .error err) => (events, .error err)
  | (events, .ok metaConfig) => (events ++ [.prepare metaConfig], d.Prepare metaConfig)

/-! ## The remote path -/

/-- A `v1.Secret`: its `Data` map. -/
structure Secret where
  Data : List (String × List Char)
deriving DecidableEq, Repr

/-- The index expression `secret.Data[key]`: nil bytes when there is no such key. -/
def Secret.index (secret : Secret) (key : String) : List Char :=
  (secret.Data.lookup key).getD []

/-- The kube client over a cluster whose state is a `σ`: reading a secret, and what
a pause of some seconds does to the state. -/
structure KubernetesClient (σ : Type) where
  /-- `kubeCl.CoreV1().Secrets(ns).Get(ctx, name, opts)` -/
  GetSecret : String → String → σ → Except GoError Secret × σ
  /-- the cluster after `time.Sleep` -/
  Elapse : Nat → σ → σ

/-- Modelled from the spec: the constant `CloudClusterType` is declared outside this
file; the spec names the cloud sentinel `"Cloud"`. -/
def CloudClusterType : String := "Cloud"

/-- The function `parseConfigFromCluster`: the events, the result and the cluster
state it leaves. -/
def parseConfigFromCluster {σ : Type} (d : Deps) (kubeCl : KubernetesClient σ) (w : σ) :
    List Event × Except GoError MetaConfig × σ :=
  let metaConfig : MetaConfig := {}
  match kubeCl.GetSecret "kube-system" "d8-cluster-configuration" w with
  | (.error err, w₁) => ([.get "kube-system" "d8-cluster-configuration"], .error err, w₁)
  | (.ok clusterConfig, w₁) =>
    let ev₁ := [Event.get "kube-system" "d8-cluster-configuration"]
    let clusterConfigData := clusterConfig.index "cluster-configuration.yaml"
    match d.Validate clusterConfigData with
    | (_, .error err) => (ev₁ ++ [.validate clusterConfigData], .error err, w₁)
    | (clusterConfigData', .ok _) =>
      let ev₂ := ev₁ ++ [.validate clusterConfigData]
      match d.Unmarshal clusterConfigData' with
      | .error err => (ev₂ ++ [.unmarshal clusterConfigData'], .error err, w₁)
      | .ok parsedClusterConfig =>
        let ev₃ := ev₂ ++ [.unmarshal clusterConfigData']
        let metaConfig := { metaConfig with ClusterConfig := parsedClusterConfig }
        match d.UnmarshalString (parsedClusterConfig.index "clusterType") with
        | .error err => (ev₃, .error err, w₁)
        | .ok clusterType =>
          if clusterType = CloudClusterType then
            match kubeCl.GetSecret "kube-system" "d8-provider-cluster-configuration" w₁ with
            | (.error err, w₂) =>
              (ev₃ ++ [.get "kube-system" "d8-provider-cluster-configuration"], .error err, w₂)
            | (.ok providerClusterConfig, w₂) =>
              let ev₄ := ev₃ ++ [.get "kube-system" "d8-provider-cluster-configuration"]
              let providerClusterConfigData :=
                providerClusterConfig.index "cloud-provider-cluster-configuration.yaml"
              match d.Validate providerClusterConfigData with
              | (_, .error err) =>
                (ev₄ ++ [.validate providerClusterConfigData], .error err, w₂)
              | (providerClusterConfigData', .ok _) =>
                let ev₅ := ev₄ ++ [.validate providerClusterConfigData]
                match d.Unmarshal providerClusterConfigData' with
                | .error err =>
                  (ev₅ ++ [.unmarshal providerClusterConfigData'], .error err, w₂)
                | .ok parsedProviderClusterConfig =>
                  let metaConfig :=
                    { metaConfig with ProviderClusterConfig := parsedProviderClusterConfig }
                  (ev₅ ++ [.unmarshal providerClusterConfigData', .prepare metaConfig],
                    d.Prepare metaConfig, w₂)
          else (ev₃ ++ [.prepare metaConfig], d.Prepare metaConfig, w₁)

/-- The variables the retried closure captures and the world it runs in. -/
structure LoopState (σ : Type) where
  /-- the cluster -/
  world : σ
  /-- `var metaConfig *MetaConfig` -/
  metaConfig : Option MetaConfig
  /-- `var err error` -/
  err : Option GoError
  /-- the events so far -/
  events : List Event

/-- The closure `func() error { metaConfig, err = parseConfigFromCluster(kubeCl); return err }`;
every call is marked by the event `attempt`. -/
def fetchTask {σ : Type} (d : Deps) (kubeCl : KubernetesClient σ) (st : LoopState σ) :
    Option GoError × LoopState σ :=
  match parseConfigFromCluster d kubeCl st.world with
  | (events, .ok metaConfig, w) =>
    (none, { world := w, metaConfig := some metaConfig, err := none,
             events := st.events ++ .attempt :: events })
  | (events, .error err, w) =>
    (some err, { world := w, metaConfig := none, err := some err,
                 events := st.events ++ .attempt :: events })

/-- The pause between two attempts. -/
def pause {σ : Type} (kubeCl : KubernetesClient σ) (waitSeconds : Nat) (st : LoopState σ) :
    LoopState σ :=
  { st with world := kubeCl.Elapse waitSeconds st.world,
            events := st.events ++ [.sleep waitSeconds] }

/-- Modelled from the spec: the loop of `retry.StartLoop` and `retry.StartSilentLoop`
(package `dhctl/pkg/util/retry`, not in this file).  Spec 4.5: the operation is
executed up to a fixed number of attempts separated by a fixed delay, the first
success or the final failure is returned, every error is treated alike, and the
last error comes back as RetryExhaustedError. -/
def retryLoop {σ : Type} (d : Deps) (kubeCl : KubernetesClient σ) (waitSeconds : Nat)
    (task : LoopState σ → Option GoError × LoopState σ) :
    Nat → LoopState σ → Option GoError × LoopState σ
  | 0, st => (none, st)
  | attemptsLeft + 1, st =>
    match task st with
    | (none, st₁) => (none, st₁)
    | (some err, st₁) =>
      if attemptsLeft = 0 then (some (d.RetryExhausted err), st₁)
      else retryLoop d kubeCl waitSeconds task attemptsLeft (pause kubeCl waitSeconds st₁)

/-- Modelled from the spec: `retry.StartLoop(name, attemptsQuantity, waitSeconds, task)`,
the loud variant; the label only names the operation for the user. -/
def StartLoop {σ : Type} (d : Deps) (kubeCl : KubernetesClient σ) (_name : String)
    (attemptsQuantity waitSeconds : Nat)
    (task : LoopState σ → Option GoError × LoopState σ) (st : LoopState σ) :
    Option GoError × LoopState σ :=
  retryLoop d kubeCl waitSeconds task attemptsQuantity st

/-- Modelled from the spec: `retry.StartSilentLoop`, the same loop without the label
shown. -/
def StartSilentLoop {σ : Type} (d : Deps) (kubeCl : KubernetesClient σ) (_name : String)
    (attemptsQuantity waitSeconds : Nat)
    (task : LoopState σ → Option GoError × LoopState σ) (st : LoopState σ) :
    Option GoError × LoopState σ :=
  retryLoop d kubeCl waitSeconds task attemptsQuantity st

/-- Modelled from the spec: `log.Process(category, name, run)` (package `dhctl/pkg/log`,
not in this file) runs `run` under a user-visible label and returns its error. -/
def logProcess {σ : Type} (_category _name : String)
    (run : LoopState σ → Option GoError × LoopState σ) (st : LoopState σ) :
    Option GoError × LoopState σ :=
  run st

/-- The tail shared by both entry points: `if err != nil { return nil, err }; return metaConfig, nil`. -/
def loopResult {σ : Type} (r : Option GoError × LoopState σ) :
    List Event × (Option MetaConfig × Option GoError) × σ :=
  match r with
  | (some err, st) => (st.events, (none, some err), st.world)
  | (none, st) => (st.events, (st.metaConfig, none), st.world)

/-- The function `ParseConfigFromCluster`. -/
def ParseConfigFromCluster {σ : Type} (d : Deps) (kubeCl : KubernetesClient σ) (w : σ) :
    List Event × (Option MetaConfig × Option GoError) × σ :=
  loopResult
    (logProcess "common" "Get Cluster configuration"
      (StartLoop d kubeCl "Get Cluster configuration from Kubernetes cluster" 10 5
        (fetchTask d kubeCl))
      { world := w, metaConfig := none, err := none, events := [] })

/-- The function `ParseConfigInCluster`. -/
def ParseConfigInCluster {σ : Type} (d : Deps) (kubeCl : KubernetesClient σ) (w : σ) :
    List Event × (Option MetaConfig × Option GoError) × σ :=
  loopResult
    (StartSilentLoop d kubeCl "Get Cluster configuration from inside Kubernetes cluster" 5 5
      (fetchTask d kubeCl)
      { world := w, metaConfig := none, err := none, events := [] })

/-- The cluster at the start of attempt `i` (counted from 0) when all attempts
before it failed: after each of them the loop pauses `waitSeconds`. -/
def worldAt {σ : Type} (d : Deps) (kubeCl : KubernetesClient σ) (waitSeconds : Nat) (w : σ) :
    Nat → σ
  | 0 => w
  | i + 1 =>
    kubeCl.Elapse waitSeconds
      (parseConfigFromCluster d kubeCl (worldAt d kubeCl waitSeconds w i)).2.2

/-- The result of attempt `i`. -/
def attemptResult {σ : Type} (d : Deps) (kubeCl : KubernetesClient σ) (waitSeconds : Nat)
    (w : σ) (i : Nat) : Except GoError MetaConfig :=
  (parseConfigFromCluster d kubeCl (worldAt d kubeCl waitSeconds w i)).2.1

/-! ## Reference splitters -/

/-- The separator marker `---`. -/
def marker : List Char := ['-', '-', '-']

/-- The text begins with the marker. -/
def startsWithMarker (s : List Char) : Bool := marker.isPrefixOf s

/-- A line whose trimmed content is exactly `---`. -/
def isSeparatorLine (line : List Char) : Bool := TrimSpace line == marker

/-- The lines grouped into fragments, cut at every separator line: `k` separator
lines give `k + 1` groups. -/
def cutAtSeparatorLines : List (List Char) → List (List (List Char))
  | [] => [[]]
  | line :: lines =>
    if isSeparatorLine line then [] :: cutAtSeparatorLines lines
    else
      match cutAtSeparatorLines lines with
      | [] => [[line]]
      | g :: gs => (line :: g) :: gs

/-- The reference splitter in the words of the specification: the trimmed input cut
at every line whose trimmed content is exactly `---`, every fragment trimmed, the
empty ones dropped. -/
def specDocuments (configData : List Char) : List (List Char) :=
  ((cutAtSeparatorLines (splitNewline (TrimSpace configData))).map
    (fun g => TrimSpace (List.intercalate ['\n'] g))).filter (fun doc => doc ≠ [])

/-- A left-to-right scan cutting at every `---` that stands at the beginning of a
line (`lineStart`: at the beginning of the text or right after a newline).  `cur` is
the fragment read so far.  A cut removes the three dashes; with `swallow` it also
removes the run of `\s` characters after them, and the scan goes on behind that run
as inside a line. -/
def cutScan (swallow : Bool) (lineStart : Bool) (cur rest : List Char) : List (List Char) :=
  match rest with
  | [] => [cur]
  | c :: cs =>
    if lineStart && startsWithMarker (c :: cs) then
      cur :: cutScan swallow false []
        (if swallow then (cs.drop 2).dropWhile reSpace else cs.drop 2)
    else cutScan swallow (c == '\n') (cur ++ [c]) cs
termination_by rest.length
decreasing_by
  · simp only [List.length_cons]
    split
    · have h := (List.dropWhile_suffix (l := cs.drop 2) reSpace).length_le
      have h2 := List.length_drop 2 cs
      omega
    · have h2 := List.length_drop 2 cs
      omega
  · simp

/-- The amended reference splitter: the trimmed input cut at every `---` that begins
a line, every fragment trimmed, the empty ones dropped. -/
def lineStartDocuments (configData : List Char) : List (List Char) :=
  ((cutScan false true [] (TrimSpace configData)).map TrimSpace).filter (fun doc => doc ≠ [])

/-- Some line of the text begins with `---`. -/
def hasLineStartMarker (lineStart : Bool) : List Char → Bool
  | [] => false
  | c :: cs => (lineStart && startsWithMarker (c :: cs)) || hasLineStartMarker (c == '\n') cs

/-- After a marker: only `\s` characters, the last of them a newline, and then the
next marker. -/
def markerAfterGap (r : List Char) : Bool :=
  (r.takeWhile reSpace).getLast? == some '\n' && startsWithMarker (r.dropWhile reSpace)

/-- Two markers at line starts with nothing but `\s` characters between them. -/
def hasAdjacentMarkers (lineStart : Bool) : List Char → Bool
  | [] => false
  | c :: cs =>
    (lineStart && startsWithMarker (c :: cs) && markerAfterGap (cs.drop 2)) ||
      hasAdjacentMarkers (c == '\n') cs

/-- Every occurrence of `---` has a non-space character before it on its line;
`seen` tells whether the current line has shown one already. -/
def markersFollowText (seen : Bool) : List Char → Bool
  | [] => true
  | c :: cs =>
    (!startsWithMarker (c :: cs) || seen) &&
      markersFollowText (if c = '\n' then false else seen || !IsSpace c) cs

/-! ## A small instance for concrete runs -/

/-- One `key: value` line as an entry of a map. -/
def sampleEntry (line : List Char) : String × List Char :=
  (String.mk (line.takeWhile (fun c => c != ':')),
    ((line.dropWhile (fun c => c != ':')).drop 1).dropWhile (fun c => c == ' '))

/-- A toy schema store and decoder: a document is accepted when its first line is
`kind: <name>`, and is decoded line by line. -/
def sampleDeps : Deps where
  Validate doc :=
    if "kind: ".data.isPrefixOf doc then
      (doc, .ok ⟨String.mk ((doc.drop 6).takeWhile (fun c => c != '\n'))⟩)
    else (doc, .error "unknown kind".data)
  Unmarshal doc := .ok (some ((splitNewline doc).map sampleEntry))
  UnmarshalString raw := .ok (String.mk raw)
  Prepare metaConfig := .ok metaConfig
  RetryExhausted err := "timeout: ".data ++ err

/-- A toy cluster: the state counts the reads; the cluster-configuration record
declares the cluster type given, and no other record exists. -/
def sampleCluster (clusterType : String) : KubernetesClient Nat where
  GetSecret ns name reads :=
    if ns = "kube-system" ∧ name = "d8-cluster-configuration" then
      (.ok ⟨[("cluster-configuration.yaml",
          "kind: ClusterConfiguration\nclusterType: ".data ++ clusterType.data)]⟩, reads + 1)
    else (.error "not found".data, reads + 1)
  Elapse _ reads := reads

/-- A toy cluster that cannot be reached. -/
def unreachableCluster : KubernetesClient Nat where
  GetSecret _ _ reads := (.error "connection refused".data, reads + 1)
  Elapse _ reads := reads

/-- The event is a remote read. -/
def Event.isGet : Event → Bool
  | .get _ _ => true
  | _ => false

/-- The event is a call of `parseConfigFromCluster` by a retry loop. -/
def Event.isAttempt : Event → Bool
  | .attempt => true
  | _ => false

/-- The documents the event list shows validated, in order. -/
def validated : List Event → List (List Char)
  | [] => []
  | .validate doc :: events => doc :: validated events
  | _ :: events => validated events

/-- The number of documents the event list shows routed. -/
def routedCount : List Event → Nat
  | [] => 0
  | .route _ _ :: events => routedCount events + 1
  | _ :: events => routedCount events

/-- The event is a call of `Prepare`. -/
def Event.isPrepare : Event → Bool
  | .prepare _ => true
  | _ => false

/-- A toy cluster that cannot be reached for the first `failures` reads and then
holds a static cluster configuration. -/
def flakyCluster (failures : Nat) : KubernetesClient Nat where
  GetSecret ns name reads :=
    if reads < failures then (.error "connection refused".data, reads + 1)
    else (sampleCluster "Static").GetSecret ns name reads
  Elapse _ reads := reads

/-- What a run of the retry loop leaves behind, relative to the state it started in:
the number of attempts it added and the pauses it added. -/
def LoopAdds {σ : Type} (ws : Nat) (st st' : LoopState σ) (attempts : Nat) : Prop :=
  (st'.events.filter Event.isAttempt).length =
      (st.events.filter Event.isAttempt).length + attempts ∧
    ∀ s, Event.sleep s ∈ st'.events → Event.sleep s ∈ st.events ∨ s = ws

/-- A toy cluster whose cluster-configuration record does not pass validation. -/
def invalidCluster : KubernetesClient Nat where
  GetSecret _ _ reads := (.ok ⟨[("cluster-configuration.yaml", "bogus".data)]⟩, reads + 1)
  Elapse _ reads := reads

/-- The loop of ParseConfigFromData on the documents it does not skip. -/
def assembleDocs (d : Deps) : List (List Char) → MetaConfig → List Event × Except GoError MetaConfig
  | [], metaConfig => ([], .ok metaConfig)
  | doc :: docs, metaConfig =>
    match d.Validate doc with
    | (docData, .error err) => ([.validate doc], .error (validationError err docData))
    | (docData, .ok index) =>
      match d.Unmarshal docData with
      | .error err =>
        ([.validate doc, .unmarshal docData], .error (unmarshalError err docData))
      | .ok data =>
        let (events, result) := assembleDocs d docs (route metaConfig index.Kind data)
        (.validate doc :: .unmarshal docData :: .route index.Kind data :: events, result)

/-- The validator accepts the document. -/
def accepts (d : Deps) (doc : List Char) : Prop :=
  ∃ index, (d.Validate doc).2 = .ok index

/-- The decoder decodes what the validator leaves of the document. -/
def decodes (d : Deps) (doc : List Char) : Prop :=
  ∃ data, d.Unmarshal (d.Validate doc).1 = .ok data

/-- The kind the validator reports for a document (empty when it rejects it). -/
def kindOf (d : Deps) (doc : List Char) : String :=
  match (d.Validate doc).2 with
  | .ok index => index.Kind
  | .error _ => ""

/-- The decoded mapping of a document (nil when it does not decode). -/
def dataOf (d : Deps) (doc : List Char) : RawMap :=
  match d.Unmarshal (d.Validate doc).1 with
  | .ok data => data
  | .error _ => none

/-- The four slots of the aggregate. -/
inductive Slot where
  | init
  | cluster
  | static
  | provider
deriving DecidableEq, Repr

/-- The content of a slot. -/
def MetaConfig.slot (metaConfig : MetaConfig) : Slot → RawMap
  | .init => metaConfig.InitClusterConfig
  | .cluster => metaConfig.ClusterConfig
  | .static => metaConfig.StaticClusterConfig
  | .provider => metaConfig.ProviderClusterConfig

/-- The routing rule in the words of the specification (4.3): the three exact kinds
go to `init`, `cluster` and `static`, any other kind ending in
`ClusterConfiguration` goes to `provider`, and every other kind to no slot. -/
def slotOf (kind : String) : Option Slot :=
  if kind = "InitConfiguration" then some .init
  else if kind = "ClusterConfiguration" then some .cluster
  else if kind = "StaticClusterConfiguration" then some .static
  else if HasSuffix kind "ClusterConfiguration" then some .provider
  else none

/-- The decoded mapping of the last document of the list that maps to the slot, and
`fallback` when no document does. -/
def lastRouted (d : Deps) (slot : Slot) (fallback : RawMap) (docs : List (List Char)) : RawMap :=
  match (docs.filter (fun doc => decide (slotOf (kindOf d doc) = some slot))).getLast? with
  | some doc => dataOf d doc
  | none => fallback

/-- The continuation of the pattern after `(?:^|\s*\n)`. -/
def afterAnchor (pos : Nat) (rest : List Char) : Option Nat :=
  if startsWithMarker rest then some (pos + 3 + ((rest.drop 3).takeWhile reSpace).length)
  else none

/-- The continuation of the pattern after `\s*`: a newline, then the marker. -/
def afterSpaces (pos : Nat) (rest : List Char) : Option Nat :=
  Regex.run (.char '\n') pos rest afterAnchor

/-- The scan is at the beginning of the text exactly when the matcher is, and the
matcher is there whenever the scan stands on a marker at a line start. -/
def Sync (pos : Nat) (lineStart : Bool) (rest : List Char) : Prop :=
  (pos = 0 → lineStart = true) ∧
    (lineStart = true → startsWithMarker rest = true → pos = 0)

/-- The line-start flag after the scan has read `ws` without a cut. -/
def endFlag (lineStart : Bool) (ws : List Char) : Bool :=
  match ws.getLast? with
  | none => lineStart
  | some c => c == '\n'

/-- The second fragment is the first one followed by `\s` characters. -/
def TrailingSpace (a b : List Char) : Prop :=
  ∃ w, (∀ c ∈ w, reSpace c = true) ∧ b = a ++ w

/-- The number of lines of the text that begin with `---`. -/
def countLineStartMarkers (lineStart : Bool) : List Char → Nat
  | [] => 0
  | c :: cs =>
    (if lineStart && startsWithMarker (c :: cs) then 1 else 0) +
      countLineStartMarkers (c == '\n') cs

/-- A non-space character stands in `pre` with no newline after it: read as the text
before an occurrence of the marker, the marker is preceded on its own line by a
non-space character.  With `seen` the same holds already when `pre` has no newline. -/
def PrecededOnLine (seen : Bool) (pre : List Char) : Prop :=
  (seen = true ∧ '\n' ∉ pre) ∨ ∃ a c b, pre = a ++ c :: b ∧ IsSpace c = false ∧ '\n' ∉ b

/-- Every occurrence of the marker `---` in the text is preceded on its own line by a
non-space character. -/
def MarkersInsideLines (s : List Char) : Prop :=
  ∀ pre post, s = pre ++ marker ++ post → PrecededOnLine false pre

/-- Two markers at line starts with nothing but `\s` characters between them: the
text is `pre ++ "---" ++ gap ++ "\n---" ++ post`, where `pre` is empty or ends in a
newline and `gap` holds `\s` characters only. -/
def AdjacentMarkers (lineStart : Bool) (t : List Char) : Prop :=
  ∃ pre gap post, t = pre ++ marker ++ gap ++ '\n' :: (marker ++ post) ∧
    endFlag lineStart pre = true ∧ ∀ c ∈ gap, reSpace c = true

/-! # Properties -/

/-! ## Routing -/

/-- Claim C4. A document of kind `ClusterConfiguration` is routed to the cluster slot:
the slot receives the decoded mapping and the provider, init and static slots keep
what they held, although the kind ends in `ClusterConfiguration`. -/
theorem route_cluster_kind (metaConfig : MetaConfig) (data : RawMap) :
    HasSuffix "ClusterConfiguration" "ClusterConfiguration" = true ∧
    route metaConfig "ClusterConfiguration" data = { metaConfig with ClusterConfig := data } ∧
    (route metaConfig "ClusterConfiguration" data).ClusterConfig = data ∧
    (route metaConfig "ClusterConfiguration" data).ProviderClusterConfig =
      metaConfig.ProviderClusterConfig ∧
    (route metaConfig "ClusterConfiguration" data).InitClusterConfig =
      metaConfig.InitClusterConfig ∧
    (route metaConfig "ClusterConfiguration" data).StaticClusterConfig =
      metaConfig.StaticClusterConfig := by
  refine ⟨by decide, ?_, ?_, ?_, ?_, ?_⟩ <;> simp [route]

/-- Claim C5. A document whose kind ends in `ClusterConfiguration` and is none of the
three exact names is routed to the provider slot: the slot receives the decoded
mapping and the init, cluster and static slots keep what they held. -/
theorem route_provider_kind (metaConfig : MetaConfig) (kind : String) (data : RawMap)
    (hsuffix : HasSuffix kind "ClusterConfiguration" = true)
    (hinit : kind ≠ "InitConfiguration") (hcluster : kind ≠ "ClusterConfiguration")
    (hstatic : kind ≠ "StaticClusterConfiguration") :
    route metaConfig kind data = { metaConfig with ProviderClusterConfig := data } ∧
    (route metaConfig kind data).ProviderClusterConfig = data ∧
    (route metaConfig kind data).InitClusterConfig = metaConfig.InitClusterConfig ∧
    (route metaConfig kind data).ClusterConfig = metaConfig.ClusterConfig ∧
    (route metaConfig kind data).StaticClusterConfig = metaConfig.StaticClusterConfig := by
  refine ⟨?_, ?_, ?_, ?_, ?_⟩ <;> simp [route, hsuffix, hinit, hcluster, hstatic]

theorem route_provider_kind_witness :
    HasSuffix "AwsClusterConfiguration" "ClusterConfiguration" = true ∧
    (route {} "AwsClusterConfiguration" (some [("kind", "x".data)])).ProviderClusterConfig =
      some [("kind", "x".data)] :=
  ⟨by decide,
   (route_provider_kind {} "AwsClusterConfiguration" (some [("kind", "x".data)])
      (by decide) (by decide) (by decide) (by decide)).2.1⟩

/-! ## The line-numbered dump -/

theorem splitNewline_ne_nil (s : List Char) : splitNewline s ≠ [] := by
  induction s with
  | nil => simp [splitNewline]
  | cons c cs ih =>
    unfold splitNewline
    split
    · simp
    · split <;> simp

theorem splitNewline_append_newline (l r : List Char) (hl : '\n' ∉ l) :
    splitNewline (l ++ '\n' :: r) = l :: splitNewline r := by
  induction l with
  | nil => simp [splitNewline]
  | cons c cs ih =>
    have hc : c ≠ '\n' := fun h => hl (by simp [h])
    have hcs : '\n' ∉ cs := fun h => hl (by simp [h])
    simp [splitNewline, hc, ih hcs]

theorem splitNewline_no_newline (l : List Char) (hl : '\n' ∉ l) : splitNewline l = [l] := by
  induction l with
  | nil => simp [splitNewline]
  | cons c cs ih =>
    have hc : c ≠ '\n' := fun h => hl (by simp [h])
    have hcs : '\n' ∉ cs := fun h => hl (by simp [h])
    simp [splitNewline, hc, ih hcs]

theorem newline_not_mem_of_mem_splitNewline (s : List Char) :
    ∀ line ∈ splitNewline s, '\n' ∉ line := by
  induction s with
  | nil => simp [splitNewline]
  | cons c cs ih =>
    unfold splitNewline
    split
    · intro line hline
      rcases List.mem_cons.1 hline with h | h
      · simp [h]
      · exact ih line h
    · rename_i hc
      split
      · rename_i heq
        exact absurd heq (splitNewline_ne_nil cs)
      · rename_i l ls heq
        intro line hline
        rw [heq] at ih
        rcases List.mem_cons.1 hline with h | h
        · subst h
          intro hmem
          rcases List.mem_cons.1 hmem with h1 | h1
          · exact hc h1.symm
          · exact ih l (by simp) h1
        · exact ih line (by simp [h])

theorem intercalate_splitNewline (s : List Char) :
    List.intercalate ['\n'] (splitNewline s) = s := by
  induction s with
  | nil => simp [splitNewline, List.intercalate]
  | cons c cs ih =>
    unfold splitNewline
    split
    · rename_i hc
      subst hc
      cases hsp : splitNewline cs with
      | nil => exact absurd hsp (splitNewline_ne_nil cs)
      | cons l ls =>
        rw [hsp] at ih
        simp only [List.intercalate] at ih ⊢
        simp only [List.intersperse, List.flatten_cons] at ih ⊢
        simpa using ih
    · split
      · rename_i heq
        exact absurd heq (splitNewline_ne_nil cs)
      · rename_i l ls heq
        rw [heq] at ih
        simp only [List.intercalate] at ih ⊢
        cases ls with
        | nil => simpa [List.intersperse] using ih
        | cons l2 ls2 => simpa [List.intersperse] using ih

theorem digitChar_ne_tab_newline (m : Nat) (hm : m < 10) :
    Nat.digitChar m ≠ '\t' ∧ Nat.digitChar m ≠ '\n' := by
  interval_cases m <;> decide

theorem toDigitsCore_ne_tab_newline (fuel : Nat) :
    ∀ (n : Nat) (ds : List Char), (∀ c ∈ ds, c ≠ '\t' ∧ c ≠ '\n') →
      ∀ c ∈ Nat.toDigitsCore 10 fuel n ds, c ≠ '\t' ∧ c ≠ '\n' := by
  induction fuel with
  | zero => intro n ds hds c hc; exact hds c (by simpa [Nat.toDigitsCore] using hc)
  | succ fuel ih =>
    intro n ds hds c hc
    have hd := digitChar_ne_tab_newline (n % 10) (Nat.mod_lt _ (by decide))
    have hds' : ∀ c ∈ Nat.digitChar (n % 10) :: ds, c ≠ '\t' ∧ c ≠ '\n' := by
      intro c hc
      rcases List.mem_cons.1 hc with h | h
      · rw [h]; exact hd
      · exact hds c h
    unfold Nat.toDigitsCore at hc
    by_cases h0 : n / 10 = 0
    · simp only [h0, if_true] at hc
      exact hds' c hc
    · simp only [h0, if_false] at hc
      exact ih _ _ hds' c hc

theorem toDigits_ne_tab_newline (n : Nat) :
    ∀ c ∈ Nat.toDigits 10 n, c ≠ '\t' ∧ c ≠ '\n' :=
  toDigitsCore_ne_tab_newline _ _ _ (by simp)

theorem numerateLoop_eq (lines : List (List Char)) :
    ∀ (index : Nat) (builder : List Char),
      numerateLoop lines index builder =
        builder ++ ((lines.enumFrom (index + 1)).map
          (fun il => Nat.toDigits 10 il.1 ++ '\t' :: (il.2 ++ ['\n']))).flatten := by
  induction lines with
  | nil => intro index builder; simp [numerateLoop]
  | cons line lines ih =>
    intro index builder
    simp [numerateLoop, ih, numberedLine]

theorem splitNewline_numbered (lines : List (List Char)) (hlines : ∀ l ∈ lines, '\n' ∉ l) :
    ∀ start : Nat,
      splitNewline ((lines.enumFrom start).map
          (fun il => Nat.toDigits 10 il.1 ++ '\t' :: (il.2 ++ ['\n']))).flatten =
        (lines.enumFrom start).map (fun il => Nat.toDigits 10 il.1 ++ '\t' :: il.2) ++ [[]] := by
  induction lines with
  | nil => intro start; simp [splitNewline]
  | cons line lines ih =>
    intro start
    have h1 : '\n' ∉ Nat.toDigits 10 start ++ '\t' :: line := by
      intro h
      rcases List.mem_append.1 h with h | h
      · exact (toDigits_ne_tab_newline start _ h).2 rfl
      · rcases List.mem_cons.1 h with h | h
        · exact absurd h (by decide)
        · exact hlines line (by simp) h
    have e : ∀ X : List Char, (Nat.toDigits 10 start ++ '\t' :: (line ++ ['\n'])) ++ X =
        (Nat.toDigits 10 start ++ '\t' :: line) ++ '\n' :: X := by
      intro X; simp
    simp only [List.enumFrom_cons, List.map_cons, List.flatten_cons, List.cons_append]
    rw [e, splitNewline_append_newline _ _ h1, ih (fun l hl => hlines l (by simp [hl]))]

theorem strip_numbered_line (n : Nat) (line : List Char) :
    ((Nat.toDigits 10 n ++ '\t' :: line).dropWhile (fun c => c != '\t')).drop 1 = line := by
  have h : ∀ c ∈ Nat.toDigits 10 n, (fun c => c != '\t') c = true := by
    intro c hc
    simpa using (toDigits_ne_tab_newline n c hc).1
  rw [List.dropWhile_append_of_pos h]
  simp

theorem map_strip_numbered (lines : List (List Char)) :
    ∀ start : Nat,
      ((lines.enumFrom start).map (fun il => Nat.toDigits 10 il.1 ++ '\t' :: il.2)).map
        (fun l => (l.dropWhile (fun c => c != '\t')).drop 1) = lines := by
  induction lines with
  | nil => intro start; simp
  | cons line lines ih =>
    intro start
    simp only [List.enumFrom_cons, List.map_cons, strip_numbered_line, ih]

/-- Claim C10. The dump of `numerateManifestLines` is the manifest line by line: the
lines are those of `strings.Split(manifest, "\n")` (joined by newlines they give the
manifest back, none of them holds a newline), line `i` (counted from 1) is written as
the decimal numeral of `i`, a tab, the line and a newline, in order, and removing
the number prefixes and the final newline gives the manifest back. -/
theorem numerateManifestLines_faithful (manifest : List Char) :
    numerateManifestLines manifest =
      (((splitNewline manifest).enumFrom 1).map
        (fun il => Nat.toDigits 10 il.1 ++ '\t' :: (il.2 ++ ['\n']))).flatten ∧
    List.intercalate ['\n'] (splitNewline manifest) = manifest ∧
    (∀ line ∈ splitNewline manifest, '\n' ∉ line) ∧
    0 < (splitNewline manifest).length ∧
    stripNumbers (numerateManifestLines manifest) = manifest := by
  have h1 : numerateManifestLines manifest =
      (((splitNewline manifest).enumFrom 1).map
        (fun il => Nat.toDigits 10 il.1 ++ '\t' :: (il.2 ++ ['\n']))).flatten := by
    simp [numerateManifestLines, numerateLoop_eq]
  refine ⟨h1, intercalate_splitNewline manifest,
    newline_not_mem_of_mem_splitNewline manifest,
    List.length_pos.2 (splitNewline_ne_nil manifest), ?_⟩
  rw [stripNumbers, h1,
    splitNewline_numbered _ (newline_not_mem_of_mem_splitNewline manifest) 1,
    List.dropLast_concat, map_strip_numbered, intercalate_splitNewline]

/-! ## The remote path -/

/-- Claim C7. When the cluster-configuration record is read, passes validation, decodes
and declares a cluster type other than `"Cloud"`, `parseConfigFromCluster` reads the
cluster exactly once, never asks for the provider record, and calls `Prepare` on the
aggregate whose cluster slot is the decoded record and whose other slots, the
provider slot among them, are empty; it returns what `Prepare` returns. -/
theorem parseConfigFromCluster_not_cloud {σ : Type} (d : Deps) (kubeCl : KubernetesClient σ)
    (w w₁ : σ) (secret : Secret) (docData : List Char) (index : SchemaIndex)
    (parsed : RawMap) (clusterType : String)
    (hget : kubeCl.GetSecret "kube-system" "d8-cluster-configuration" w = (.ok secret, w₁))
    (hvalid : d.Validate (secret.index "cluster-configuration.yaml") = (docData, .ok index))
    (hdecode : d.Unmarshal docData = .ok parsed)
    (htype : d.UnmarshalString (parsed.index "clusterType") = .ok clusterType)
    (hnotCloud : clusterType ≠ "Cloud") :
    parseConfigFromCluster d kubeCl w =
      ([.get "kube-system" "d8-cluster-configuration",
        .validate (secret.index "cluster-configuration.yaml"),
        .unmarshal docData,
        .prepare { ClusterConfig := parsed, ProviderClusterConfig := none }],
       d.Prepare { ClusterConfig := parsed, ProviderClusterConfig := none }, w₁) ∧
    ((parseConfigFromCluster d kubeCl w).1.filter Event.isGet).length = 1 ∧
    Event.get "kube-system" "d8-provider-cluster-configuration" ∉
      (parseConfigFromCluster d kubeCl w).1 := by
  have hne : clusterType ≠ CloudClusterType := hnotCloud
  have h : parseConfigFromCluster d kubeCl w =
      ([.get "kube-system" "d8-cluster-configuration",
        .validate (secret.index "cluster-configuration.yaml"),
        .unmarshal docData,
        .prepare { ClusterConfig := parsed, ProviderClusterConfig := none }],
       d.Prepare { ClusterConfig := parsed, ProviderClusterConfig := none }, w₁) := by
    simp [parseConfigFromCluster, hget, hvalid, hdecode, htype, hne]
  refine ⟨h, ?_, ?_⟩
  · rw [h]; rfl
  · rw [h]; simp

theorem parseConfigFromCluster_not_cloud_witness :
    (parseConfigFromCluster sampleDeps (sampleCluster "Static") 0).2.2 = 1 ∧
    ((parseConfigFromCluster sampleDeps (sampleCluster "Static") 0).1.filter
      Event.isGet).length = 1 :=
  ⟨by decide,
   (parseConfigFromCluster_not_cloud sampleDeps (sampleCluster "Static") 0 1
      ⟨[("cluster-configuration.yaml",
          "kind: ClusterConfiguration\nclusterType: Static".data)]⟩
      "kind: ClusterConfiguration\nclusterType: Static".data ⟨"ClusterConfiguration"⟩
      (some [("kind", "ClusterConfiguration".data), ("clusterType", "Static".data)])
      "Static" rfl rfl rfl rfl (by decide)).2.1⟩

theorem parseConfigFromCluster_events {σ : Type} (d : Deps) (kubeCl : KubernetesClient σ)
    (w : σ) :
    ∀ e ∈ (parseConfigFromCluster d kubeCl w).1, e.isAttempt = false ∧ ∀ s, e ≠ .sleep s := by
  intro e he
  unfold parseConfigFromCluster at he
  simp only at he
  repeat' split at he
  all_goals
    simp only [List.mem_append, List.mem_cons, List.mem_singleton, List.not_mem_nil,
      or_false, false_or] at he
    first
      | (subst he; simp [Event.isAttempt])
      | (casesm* _ ∨ _ <;> subst_vars <;> simp [Event.isAttempt])

theorem worldAt_succ {σ : Type} (d : Deps) (kubeCl : KubernetesClient σ) (ws : Nat) (w : σ)
    (i : Nat) :
    worldAt d kubeCl ws w (i + 1) = worldAt d kubeCl ws (worldAt d kubeCl ws w 1) i := by
  induction i with
  | zero => rfl
  | succ i ih =>
    show kubeCl.Elapse ws (parseConfigFromCluster d kubeCl (worldAt d kubeCl ws w (i + 1))).2.2 = _
    rw [ih]
    rfl

theorem attemptResult_succ {σ : Type} (d : Deps) (kubeCl : KubernetesClient σ) (ws : Nat)
    (w : σ) (i : Nat) :
    attemptResult d kubeCl ws w (i + 1) =
      attemptResult d kubeCl ws (worldAt d kubeCl ws w 1) i := by
  unfold attemptResult
  rw [worldAt_succ]

theorem fetchTask_error {σ : Type} (d : Deps) (kubeCl : KubernetesClient σ) (ws : Nat)
    (st : LoopState σ) (err : GoError)
    (h : attemptResult d kubeCl ws st.world 0 = .error err) :
    ∃ st₁, fetchTask d kubeCl st = (some err, st₁) ∧
      st₁.world = (parseConfigFromCluster d kubeCl st.world).2.2 ∧
      LoopAdds ws st st₁ 1 := by
  have hev := parseConfigFromCluster_events d kubeCl st.world
  simp only [attemptResult, worldAt] at h
  rcases hp : parseConfigFromCluster d kubeCl st.world with ⟨events, res, w'⟩
  rw [hp] at h hev
  simp only at h
  subst h
  refine ⟨{ world := w', metaConfig := none, err := some err,
            events := st.events ++ .attempt :: events }, by simp [fetchTask, hp], rfl, ?_, ?_⟩
  · have : events.filter Event.isAttempt = [] := by
      rw [List.filter_eq_nil_iff]
      intro e he
      simp [(hev e he).1]
    simp [List.filter_append, List.filter_cons, Event.isAttempt, this]
  · intro s hs
    simp only [List.mem_append, List.mem_cons] at hs
    rcases hs with h | h | h
    · exact Or.inl h
    · exact absurd h (by simp)
    · exact absurd rfl ((hev _ h).2 s)

theorem fetchTask_ok {σ : Type} (d : Deps) (kubeCl : KubernetesClient σ) (ws : Nat)
    (st : LoopState σ) (m : MetaConfig)
    (h : attemptResult d kubeCl ws st.world 0 = .ok m) :
    ∃ st₁, fetchTask d kubeCl st = (none, st₁) ∧ st₁.metaConfig = some m ∧
      LoopAdds ws st st₁ 1 := by
  have hev := parseConfigFromCluster_events d kubeCl st.world
  simp only [attemptResult, worldAt] at h
  rcases hp : parseConfigFromCluster d kubeCl st.world with ⟨events, res, w'⟩
  rw [hp] at h hev
  simp only at h
  subst h
  refine ⟨{ world := w', metaConfig := some m, err := none,
            events := st.events ++ .attempt :: events }, by simp [fetchTask, hp], rfl, ?_, ?_⟩
  · have : events.filter Event.isAttempt = [] := by
      rw [List.filter_eq_nil_iff]
      intro e he
      simp [(hev e he).1]
    simp [List.filter_append, List.filter_cons, Event.isAttempt, this]
  · intro s hs
    simp only [List.mem_append, List.mem_cons] at hs
    rcases hs with h | h | h
    · exact Or.inl h
    · exact absurd h (by simp)
    · exact absurd rfl ((hev _ h).2 s)

theorem LoopAdds.pause_trans {σ : Type} (kubeCl : KubernetesClient σ) (ws : Nat)
    {st st₁ st₂ : LoopState σ} {a b : Nat}
    (h₁ : LoopAdds ws st st₁ a) (h₂ : LoopAdds ws (pause kubeCl ws st₁) st₂ b) :
    LoopAdds ws st st₂ (a + b) := by
  obtain ⟨h₁a, h₁s⟩ := h₁
  obtain ⟨h₂a, h₂s⟩ := h₂
  constructor
  · rw [h₂a]
    simp [pause, List.filter_append, Event.isAttempt, h₁a, List.filter_cons]
    omega
  · intro s hs
    rcases h₂s s hs with h | h
    · simp only [pause, List.mem_append, List.mem_singleton] at h
      rcases h with h | h
      · exact h₁s s h
      · right; simpa using h
    · exact Or.inr h

theorem retryLoop_exhausted {σ : Type} (d : Deps) (kubeCl : KubernetesClient σ) (ws : Nat) :
    ∀ (n : Nat) (st : LoopState σ) (lastErr : GoError),
      (∀ i < n + 1, ∃ e, attemptResult d kubeCl ws st.world i = .error e) →
      attemptResult d kubeCl ws st.world n = .error lastErr →
      ∃ st', retryLoop d kubeCl ws (fetchTask d kubeCl) (n + 1) st =
          (some (d.RetryExhausted lastErr), st') ∧ LoopAdds ws st st' (n + 1) := by
  intro n
  induction n with
  | zero =>
    intro st lastErr _ hlast
    obtain ⟨st₁, htask, _, hadds⟩ := fetchTask_error d kubeCl ws st lastErr hlast
    exact ⟨st₁, by simp [retryLoop, htask], hadds⟩
  | succ n ih =>
    intro st lastErr hall hlast
    obtain ⟨e₀, he₀⟩ := hall 0 (by omega)
    obtain ⟨st₁, htask, hworld, hadds⟩ := fetchTask_error d kubeCl ws st e₀ he₀
    have hw : (pause kubeCl ws st₁).world = worldAt d kubeCl ws st.world 1 := by
      simp [pause, hworld, worldAt]
    obtain ⟨st', hloop, hadds'⟩ := ih (pause kubeCl ws st₁) lastErr
      (by
        intro i hi
        rw [hw, ← attemptResult_succ]
        exact hall (i + 1) (by omega))
      (by rw [hw, ← attemptResult_succ]; exact hlast)
    refine ⟨st', ?_, ?_⟩
    · rw [retryLoop, htask]
      simpa using hloop
    · have := LoopAdds.pause_trans kubeCl ws hadds hadds'
      rwa [Nat.add_comm] at this

theorem retryLoop_success {σ : Type} (d : Deps) (kubeCl : KubernetesClient σ) (ws : Nat) :
    ∀ (j n : Nat) (st : LoopState σ) (m : MetaConfig), j < n →
      (∀ i < j, ∃ e, attemptResult d kubeCl ws st.world i = .error e) →
      attemptResult d kubeCl ws st.world j = .ok m →
      ∃ st', retryLoop d kubeCl ws (fetchTask d kubeCl) n st = (none, st') ∧
        st'.metaConfig = some m ∧ LoopAdds ws st st' (j + 1) := by
  intro j
  induction j with
  | zero =>
    intro n st m hn _ hok
    obtain ⟨st₁, htask, hm, hadds⟩ := fetchTask_ok d kubeCl ws st m hok
    obtain ⟨k, rfl⟩ : ∃ k, n = k + 1 := ⟨n - 1, by omega⟩
    exact ⟨st₁, by simp [retryLoop, htask], hm, hadds⟩
  | succ j ih =>
    intro n st m hn hall hok
    obtain ⟨k, rfl⟩ : ∃ k, n = k + 1 := ⟨n - 1, by omega⟩
    obtain ⟨e₀, he₀⟩ := hall 0 (by omega)
    obtain ⟨st₁, htask, hworld, hadds⟩ := fetchTask_error d kubeCl ws st e₀ he₀
    have hw : (pause kubeCl ws st₁).world = worldAt d kubeCl ws st.world 1 := by
      simp [pause, hworld, worldAt]
    obtain ⟨st', hloop, hm, hadds'⟩ := ih k (pause kubeCl ws st₁) m (by omega)
      (by
        intro i hi
        rw [hw, ← attemptResult_succ]
        exact hall (i + 1) (by omega))
      (by rw [hw, ← attemptResult_succ]; exact hok)
    refine ⟨st', ?_, hm, ?_⟩
    · rw [retryLoop, htask]
      have hk : k ≠ 0 := by omega
      simpa [hk] using hloop
    · have := LoopAdds.pause_trans kubeCl ws hadds hadds'
      rwa [Nat.add_comm] at this

/-- Claim C8. Every failure of the remote parse is retried alike.  If each of the 10
attempts of `ParseConfigFromCluster` (the 5 attempts of `ParseConfigInCluster`)
fails, for whatever reason, `parseConfigFromCluster` is called exactly 10 (5) times,
every pause is 5, and the result is no aggregate and the retry-exhausted error made
from the error of the last attempt.  If attempt `j + 1` is the first to succeed,
within the budget, its aggregate is returned with no error after exactly `j + 1`
calls. -/
theorem remote_parse_retried {σ : Type} (d : Deps) (kubeCl : KubernetesClient σ) (w : σ) :
    (∀ lastErr, (∀ i < 10, ∃ e, attemptResult d kubeCl 5 w i = .error e) →
      attemptResult d kubeCl 5 w 9 = .error lastErr →
      (ParseConfigFromCluster d kubeCl w).2.1 = (none, some (d.RetryExhausted lastErr)) ∧
      ((ParseConfigFromCluster d kubeCl w).1.filter Event.isAttempt).length = 10 ∧
      ∀ s, Event.sleep s ∈ (ParseConfigFromCluster d kubeCl w).1 → s = 5) ∧
    (∀ lastErr, (∀ i < 5, ∃ e, attemptResult d kubeCl 5 w i = .error e) →
      attemptResult d kubeCl 5 w 4 = .error lastErr →
      (ParseConfigInCluster d kubeCl w).2.1 = (none, some (d.RetryExhausted lastErr)) ∧
      ((ParseConfigInCluster d kubeCl w).1.filter Event.isAttempt).length = 5 ∧
      ∀ s, Event.sleep s ∈ (ParseConfigInCluster d kubeCl w).1 → s = 5) ∧
    (∀ j metaConfig, j < 10 → (∀ i < j, ∃ e, attemptResult d kubeCl 5 w i = .error e) →
      attemptResult d kubeCl 5 w j = .ok metaConfig →
      (ParseConfigFromCluster d kubeCl w).2.1 = (some metaConfig, none) ∧
      ((ParseConfigFromCluster d kubeCl w).1.filter Event.isAttempt).length = j + 1 ∧
      ∀ s, Event.sleep s ∈ (ParseConfigFromCluster d kubeCl w).1 → s = 5) ∧
    (∀ j metaConfig, j < 5 → (∀ i < j, ∃ e, attemptResult d kubeCl 5 w i = .error e) →
      attemptResult d kubeCl 5 w j = .ok metaConfig →
      (ParseConfigInCluster d kubeCl w).2.1 = (some metaConfig, none) ∧
      ((ParseConfigInCluster d kubeCl w).1.filter Event.isAttempt).length = j + 1 ∧
      ∀ s, Event.sleep s ∈ (ParseConfigInCluster d kubeCl w).1 → s = 5) := by
  refine ⟨?_, ?_, ?_, ?_⟩
  · intro lastErr hall hlast
    obtain ⟨st', hloop, hatt, hsleep⟩ := retryLoop_exhausted d kubeCl 5 9
      { world := w, metaConfig := none, err := none, events := [] } lastErr hall hlast
    have hr : ParseConfigFromCluster d kubeCl w =
        (st'.events, (none, some (d.RetryExhausted lastErr)), st'.world) := by
      simp [ParseConfigFromCluster, logProcess, StartLoop, hloop, loopResult]
    rw [hr]
    refine ⟨rfl, by simpa using hatt, ?_⟩
    intro s hs
    rcases hsleep s hs with h | h
    · simp at h
    · exact h
  · intro lastErr hall hlast
    obtain ⟨st', hloop, hatt, hsleep⟩ := retryLoop_exhausted d kubeCl 5 4
      { world := w, metaConfig := none, err := none, events := [] } lastErr hall hlast
    have hr : ParseConfigInCluster d kubeCl w =
        (st'.events, (none, some (d.RetryExhausted lastErr)), st'.world) := by
      simp [ParseConfigInCluster, StartSilentLoop, hloop, loopResult]
    rw [hr]
    refine ⟨rfl, by simpa using hatt, ?_⟩
    intro s hs
    rcases hsleep s hs with h | h
    · simp at h
    · exact h
  · intro j metaConfig hj hall hok
    obtain ⟨st', hloop, hm, hatt, hsleep⟩ := retryLoop_success d kubeCl 5 j 10
      { world := w, metaConfig := none, err := none, events := [] } metaConfig hj hall hok
    have hr : ParseConfigFromCluster d kubeCl w =
        (st'.events, (some metaConfig, none), st'.world) := by
      simp [ParseConfigFromCluster, logProcess, StartLoop, hloop, loopResult, hm]
    rw [hr]
    refine ⟨rfl, by simpa using hatt, ?_⟩
    intro s hs
    rcases hsleep s hs with h | h
    · simp at h
    · exact h
  · intro j metaConfig hj hall hok
    obtain ⟨st', hloop, hm, hatt, hsleep⟩ := retryLoop_success d kubeCl 5 j 5
      { world := w, metaConfig := none, err := none, events := [] } metaConfig hj hall hok
    have hr : ParseConfigInCluster d kubeCl w =
        (st'.events, (some metaConfig, none), st'.world) := by
      simp [ParseConfigInCluster, StartSilentLoop, hloop, loopResult, hm]
    rw [hr]
    refine ⟨rfl, by simpa using hatt, ?_⟩
    intro s hs
    rcases hsleep s hs with h | h
    · simp at h
    · exact h

theorem remote_parse_retried_witness :
    ((ParseConfigFromCluster sampleDeps unreachableCluster 0).2.1 =
        (none, some "timeout: connection refused".data) ∧
      ((ParseConfigFromCluster sampleDeps unreachableCluster 0).1.filter
        Event.isAttempt).length = 10) ∧
    ((ParseConfigInCluster sampleDeps invalidCluster 0).2.1 =
        (none, some "timeout: unknown kind".data) ∧
      ((ParseConfigInCluster sampleDeps invalidCluster 0).1.filter
        Event.isAttempt).length = 5) ∧
    ((ParseConfigFromCluster sampleDeps (flakyCluster 9) 0).2.1 =
        (some { ClusterConfig := some [("kind", "ClusterConfiguration".data),
                  ("clusterType", "Static".data)] }, none) ∧
      ((ParseConfigFromCluster sampleDeps (flakyCluster 9) 0).1.filter
        Event.isAttempt).length = 10) := by
  refine ⟨?_, ?_, ?_⟩
  · have h := (remote_parse_retried sampleDeps unreachableCluster 0).1
      "connection refused".data
      (by intro i hi; interval_cases i <;> exact ⟨_, rfl⟩) rfl
    exact ⟨h.1, h.2.1⟩
  · have h := (remote_parse_retried sampleDeps invalidCluster 0).2.1
      "unknown kind".data
      (by intro i hi; interval_cases i <;> exact ⟨_, rfl⟩) rfl
    exact ⟨h.1, h.2.1⟩
  · have h := (remote_parse_retried sampleDeps (flakyCluster 9) 0).2.2.1 9
      { ClusterConfig := some [("kind", "ClusterConfiguration".data),
          ("clusterType", "Static".data)] } (by decide)
      (by intro i hi; interval_cases i <;> exact ⟨_, rfl⟩) rfl
    exact ⟨h.1, h.2.1⟩

/-! ## The text path -/

theorem assemble_eq_assembleDocs (d : Deps) (fragments : List (List Char)) :
    ∀ metaConfig, assemble d fragments metaConfig =
      assembleDocs d ((fragments.map TrimSpace).filter (fun doc => doc ≠ [])) metaConfig := by
  induction fragments with
  | nil => intro m; simp [assemble, assembleDocs]
  | cons f fs ih =>
    intro m
    by_cases hf : TrimSpace f = []
    · simp [assemble, hf, ih]
    · simp only [assemble, hf, if_false, List.map_cons, ne_eq, not_false_eq_true,
        decide_True, List.filter_cons_of_pos, assembleDocs]
      rcases hv : d.Validate (TrimSpace f) with ⟨docData, _ | index⟩
      · simp
      · rcases hu : d.Unmarshal docData with _ | data
        · simp [hu]
        · simp [hu, ih]

theorem ParseConfigFromData_eq (d : Deps) (configData : List Char) :
    ParseConfigFromData d configData =
      match assembleDocs d (documents configData) {} with
      | (events, .error err) => (events, .error err)
      | (events, .ok metaConfig) => (events ++ [.prepare metaConfig], d.Prepare metaConfig) := by
  simp [ParseConfigFromData, assemble_eq_assembleDocs, documents]

theorem assembleDocs_rejected (d : Deps) (doc docData : List Char) (err : GoError)
    (after : List (List Char)) (hrej : d.Validate doc = (docData, .error err)) :
    ∀ (before : List (List Char)) (metaConfig : MetaConfig),
      (∃ e, (assembleDocs d (before ++ doc :: after) metaConfig).2 = .error e) ∧
      (∀ ev ∈ (assembleDocs d (before ++ doc :: after) metaConfig).1, ev.isPrepare = false) ∧
      validated (assembleDocs d (before ++ doc :: after) metaConfig).1 <+: before ++ [doc] ∧
      routedCount (assembleDocs d (before ++ doc :: after) metaConfig).1 ≤ before.length ∧
      ((∀ b ∈ before, accepts d b ∧ decodes d b) →
        (assembleDocs d (before ++ doc :: after) metaConfig).2 =
          .error (validationError err docData) ∧
        validated (assembleDocs d (before ++ doc :: after) metaConfig).1 = before ++ [doc] ∧
        routedCount (assembleDocs d (before ++ doc :: after) metaConfig).1 = before.length) := by
  intro before
  induction before with
  | nil =>
    intro m
    simp [assembleDocs, hrej, validated, routedCount, Event.isPrepare]
  | cons b bs ih =>
    intro m
    rcases hv : d.Validate b with ⟨dd, e | index⟩
    · have hr : assembleDocs d (b :: bs ++ doc :: after) m =
          ([.validate b], .error (validationError e dd)) := by
        simp [assembleDocs, hv]
      rw [hr]
      refine ⟨⟨_, rfl⟩, by simp [Event.isPrepare], ?_, by simp [routedCount], ?_⟩
      · simp [validated]
      · intro h
        obtain ⟨⟨index, hacc⟩, _⟩ := h b (by simp)
        rw [hv] at hacc
        cases hacc
    · rcases hu : d.Unmarshal dd with e | data
      · have hr : assembleDocs d (b :: bs ++ doc :: after) m =
            ([.validate b, .unmarshal dd], .error (unmarshalError e dd)) := by
          simp [assembleDocs, hv, hu]
        rw [hr]
        refine ⟨⟨_, rfl⟩, by simp [Event.isPrepare], ?_, by simp [routedCount], ?_⟩
        · simp [validated]
        · intro h
          obtain ⟨_, ⟨data, hdec⟩⟩ := h b (by simp)
          rw [hv] at hdec
          simp only at hdec
          rw [hu] at hdec
          cases hdec
      · have hr : assembleDocs d (b :: bs ++ doc :: after) m =
            (.validate b :: .unmarshal dd :: .route index.Kind data ::
              (assembleDocs d (bs ++ doc :: after) (route m index.Kind data)).1,
             (assembleDocs d (bs ++ doc :: after) (route m index.Kind data)).2) := by
          simp [assembleDocs, hv, hu]
        obtain ⟨h1, h2, h3, h4, h5⟩ := ih (route m index.Kind data)
        rw [hr]
        refine ⟨h1, ?_, ?_, ?_, ?_⟩
        · intro ev hev
          simp only [List.mem_cons] at hev
          rcases hev with h | h | h | h
          · subst h; rfl
          · subst h; rfl
          · subst h; rfl
          · exact h2 ev h
        · simpa [validated] using h3
        · simpa [validated, routedCount] using h4
        · intro h
          obtain ⟨h6, h7, h8⟩ := h5 (fun x hx => h x (by simp [hx]))
          exact ⟨h6, by simpa [validated] using h7, by simpa [validated, routedCount] using h8⟩

/-- Claim C6. When the validator rejects a document of the text, `ParseConfigFromData`
returns an error and no aggregate and never calls `Prepare`; the documents it
validated are documents up to the rejected one, in text order, so no later document
is validated or routed.  When the rejected document is the first one rejected and
the documents before it decode, the loop stops exactly there: every document up to
it was validated, every one before it was routed, and the error is the validation
error of the rejected document with its numbered dump. -/
theorem validation_failure_stops (d : Deps) (configData : List Char)
    (before after : List (List Char)) (doc docData : List Char) (err : GoError)
    (hdocs : documents configData = before ++ doc :: after)
    (hrej : d.Validate doc = (docData, .error err)) :
    (∃ e, (ParseConfigFromData d configData).2 = .error e) ∧
    (∀ ev ∈ (ParseConfigFromData d configData).1, ev.isPrepare = false) ∧
    validated (ParseConfigFromData d configData).1 <+: before ++ [doc] ∧
    routedCount (ParseConfigFromData d configData).1 ≤ before.length ∧
    ((∀ b ∈ before, accepts d b ∧ decodes d b) →
      (ParseConfigFromData d configData).2 =
        .error ("config validation: ".data ++ err ++ "\ndata: \n".data ++
          numerateManifestLines docData ++ "\n".data) ∧
      validated (ParseConfigFromData d configData).1 = before ++ [doc] ∧
      routedCount (ParseConfigFromData d configData).1 = before.length) := by
  obtain ⟨⟨e, h1⟩, h2, h3, h4, h5⟩ := assembleDocs_rejected d doc docData err after hrej before {}
  have hr : ParseConfigFromData d configData =
      ((assembleDocs d (before ++ doc :: after) {}).1, .error e) := by
    rw [ParseConfigFromData_eq, hdocs]
    rcases hp : assembleDocs d (before ++ doc :: after) {} with ⟨events, res⟩
    rw [hp] at h1
    simp only at h1
    subst h1
    rfl
  rw [hr]
  refine ⟨⟨e, rfl⟩, h2, h3, h4, ?_⟩
  intro h
  obtain ⟨h6, h7, h8⟩ := h5 h
  refine ⟨?_, h7, h8⟩
  rw [← h1, h6]
  rfl

theorem validation_failure_stops_witness :
    (∃ e, (ParseConfigFromData sampleDeps
      "kind: ClusterConfiguration\na: 1\n---\nbogus\n---\nkind: InitConfiguration".data).2 =
        .error e) ∧
    validated (ParseConfigFromData sampleDeps
      "kind: ClusterConfiguration\na: 1\n---\nbogus\n---\nkind: InitConfiguration".data).1 =
        ["kind: ClusterConfiguration\na: 1".data, "bogus".data] ∧
    routedCount (ParseConfigFromData sampleDeps
      "kind: ClusterConfiguration\na: 1\n---\nbogus\n---\nkind: InitConfiguration".data).1 = 1 := by
  have h := validation_failure_stops sampleDeps
    "kind: ClusterConfiguration\na: 1\n---\nbogus\n---\nkind: InitConfiguration".data
    ["kind: ClusterConfiguration\na: 1".data] ["kind: InitConfiguration".data]
    "bogus".data "bogus".data "unknown kind".data (by decide) rfl
  refine ⟨h.1, ?_⟩
  have h' := h.2.2.2.2 (by
    intro b hb
    simp only [List.mem_singleton] at hb
    subst hb
    exact ⟨⟨_, rfl⟩, ⟨_, rfl⟩⟩)
  exact ⟨h'.2.1, h'.2.2⟩

theorem route_slot (metaConfig : MetaConfig) (kind : String) (data : RawMap) (slot : Slot) :
    (route metaConfig kind data).slot slot =
      if slotOf kind = some slot then data else metaConfig.slot slot := by
  unfold route slotOf
  split_ifs <;> cases slot <;> simp_all [MetaConfig.slot]

theorem lastRouted_cons (d : Deps) (slot : Slot) (fallback : RawMap) (doc : List Char)
    (docs : List (List Char)) :
    lastRouted d slot fallback (doc :: docs) =
      lastRouted d slot
        (if slotOf (kindOf d doc) = some slot then dataOf d doc else fallback) docs := by
  unfold lastRouted
  by_cases h : slotOf (kindOf d doc) = some slot
  · simp only [h, decide_True, List.filter_cons_of_pos, if_true]
    cases hf : docs.filter (fun doc => decide (slotOf (kindOf d doc) = some slot)) with
    | nil => simp
    | cons x xs =>
      rw [List.getLast?_cons_cons, List.getLast?_eq_getLast (x :: xs) (List.cons_ne_nil x xs)]
  · simp [h]

theorem assembleDocs_all_valid (d : Deps) :
    ∀ (docs : List (List Char)) (metaConfig : MetaConfig),
      (∀ doc ∈ docs, accepts d doc ∧ decodes d doc) →
      ∃ final, (assembleDocs d docs metaConfig).2 = .ok final ∧
        ∀ slot, final.slot slot = lastRouted d slot (metaConfig.slot slot) docs := by
  intro docs
  induction docs with
  | nil => intro m _; exact ⟨m, rfl, fun s => rfl⟩
  | cons doc docs ih =>
    intro m hvalid
    obtain ⟨⟨index, hacc⟩, ⟨data, hdec⟩⟩ := hvalid doc (by simp)
    rcases hv : d.Validate doc with ⟨dd, res⟩
    rw [hv] at hacc hdec
    simp only at hacc hdec
    subst hacc
    obtain ⟨final, hfinal, hslots⟩ := ih (route m index.Kind data)
      (fun x hx => hvalid x (by simp [hx]))
    refine ⟨final, by simp [assembleDocs, hv, hdec, hfinal], ?_⟩
    intro slot
    have hk : kindOf d doc = index.Kind := by simp [kindOf, hv]
    have hd : dataOf d doc = data := by simp [dataOf, hv, hdec]
    rw [hslots slot, lastRouted_cons, route_slot, hk, hd]

/-- Claim C9, amended. When every document of the text is valid (accepted by the
validator and decoded), the loop of `ParseConfigFromData` ends without an error
whatever slots the documents map to, `Prepare` is called on the aggregate assembled,
and every slot of that aggregate holds the decoded mapping of the last document in
text order that maps to it (it is empty when none does): earlier documents of the
same slot are overwritten. -/
theorem duplicate_slot_last_wins (d : Deps) (configData : List Char)
    (hvalid : ∀ doc ∈ documents configData, accepts d doc ∧ decodes d doc) :
    ∃ metaConfig,
      (assemble d (splitDocs configData) {}).2 = .ok metaConfig ∧
      (ParseConfigFromData d configData).2 = d.Prepare metaConfig ∧
      (ParseConfigFromData d configData).1.getLast? = some (.prepare metaConfig) ∧
      ∀ slot, metaConfig.slot slot = lastRouted d slot none (documents configData) := by
  obtain ⟨final, hfinal, hslots⟩ := assembleDocs_all_valid d (documents configData) {} hvalid
  have ha : assemble d (splitDocs configData) {} =
      assembleDocs d (documents configData) {} := by
    rw [assemble_eq_assembleDocs]; rfl
  rcases hp : assembleDocs d (documents configData) {} with ⟨events, res⟩
  rw [hp] at hfinal
  simp only at hfinal
  subst hfinal
  refine ⟨final, by rw [ha, hp], ?_, ?_, ?_⟩
  · rw [ParseConfigFromData_eq, hp]
  · rw [ParseConfigFromData_eq, hp]
    simp
  · intro slot
    rw [hslots slot]
    cases slot <;> rfl

theorem duplicate_slot_last_wins_witness :
    (∀ doc ∈ documents "kind: ClusterConfiguration\na: 1\n---\nkind: ClusterConfiguration\na: 2".data,
      accepts sampleDeps doc ∧ decodes sampleDeps doc) ∧
    ∃ metaConfig,
      (ParseConfigFromData sampleDeps
        "kind: ClusterConfiguration\na: 1\n---\nkind: ClusterConfiguration\na: 2".data).2 =
          .ok metaConfig ∧
      metaConfig.ClusterConfig =
        some [("kind", "ClusterConfiguration".data), ("a", "2".data)] := by
  have hv : ∀ doc ∈
      documents "kind: ClusterConfiguration\na: 1\n---\nkind: ClusterConfiguration\na: 2".data,
      accepts sampleDeps doc ∧ decodes sampleDeps doc := by
    have hd : documents
        "kind: ClusterConfiguration\na: 1\n---\nkind: ClusterConfiguration\na: 2".data =
        ["kind: ClusterConfiguration\na: 1".data, "kind: ClusterConfiguration\na: 2".data] := by
      decide
    rw [hd]
    intro doc hdoc
    simp only [List.mem_cons, List.mem_singleton, List.not_mem_nil, or_false] at hdoc
    rcases hdoc with h | h <;> subst h <;> exact ⟨⟨_, rfl⟩, ⟨_, rfl⟩⟩
  refine ⟨hv, ?_⟩
  obtain ⟨m, _, h2, _, h4⟩ := duplicate_slot_last_wins sampleDeps _ hv
  refine ⟨m, h2, ?_⟩
  have := h4 .cluster
  rw [show m.slot .cluster = m.ClusterConfig from rfl] at this
  rw [this]
  decide

/-- Claim C9 as stated fails. The text holds two valid documents of kind
`ClusterConfiguration`, both mapping to the cluster slot, and after them a document
the validator rejects: the loop returns the validation error of that document, so
an error is raised during assembly, `Prepare` is never called and no aggregate is
handed to it. -/
theorem duplicate_slot_then_invalid_fails :
    documents
        "kind: ClusterConfiguration\na: 1\n---\nkind: ClusterConfiguration\na: 2\n---\nbogus".data =
      ["kind: ClusterConfiguration\na: 1".data, "kind: ClusterConfiguration\na: 2".data,
        "bogus".data] ∧
    sampleDeps.Validate "kind: ClusterConfiguration\na: 1".data =
      ("kind: ClusterConfiguration\na: 1".data, .ok ⟨"ClusterConfiguration"⟩) ∧
    sampleDeps.Validate "kind: ClusterConfiguration\na: 2".data =
      ("kind: ClusterConfiguration\na: 2".data, .ok ⟨"ClusterConfiguration"⟩) ∧
    sampleDeps.Unmarshal "kind: ClusterConfiguration\na: 1".data =
      .ok (some [("kind", "ClusterConfiguration".data), ("a", "1".data)]) ∧
    sampleDeps.Unmarshal "kind: ClusterConfiguration\na: 2".data =
      .ok (some [("kind", "ClusterConfiguration".data), ("a", "2".data)]) ∧
    slotOf "ClusterConfiguration" = some Slot.cluster ∧
    (ParseConfigFromData sampleDeps
        "kind: ClusterConfiguration\na: 1\n---\nkind: ClusterConfiguration\na: 2\n---\nbogus".data).2 =
      .error (validationError "unknown kind".data "bogus".data) ∧
    ((ParseConfigFromData sampleDeps
        "kind: ClusterConfiguration\na: 1\n---\nkind: ClusterConfiguration\na: 2\n---\nbogus".data).1.filter
      Event.isPrepare) = [] :=
  ⟨by decide, rfl, rfl, rfl, rfl, by decide, rfl, by decide⟩

/-! ## The splitter -/

theorem reSpace_ne_dash {c : Char} (h : reSpace c = true) : c ≠ '-' := by
  rintro rfl
  exact absurd h (by decide)

theorem IsSpace_ne_dash {c : Char} (h : IsSpace c = true) : c ≠ '-' := by
  rintro rfl
  exact absurd h (by decide)

theorem IsSpace_of_reSpace {c : Char} (h : reSpace c = true) : IsSpace c = true := by
  simp only [reSpace, Bool.or_eq_true, beq_iff_eq] at h
  rcases h with (((h | h) | h) | h) | h <;> subst h <;> decide

theorem starRun_final (cls : Char → Bool) (rest : List Char) :
    ∀ pos, starRun cls (fun e _ => some e) pos rest = some (pos + (rest.takeWhile cls).length) := by
  induction rest with
  | nil => intro pos; simp [starRun]
  | cons c cs ih =>
    intro pos
    by_cases hc : cls c = true
    · simp [starRun, hc, ih, List.takeWhile_cons]
      omega
    · simp [starRun, hc, List.takeWhile_cons]

/-- The tail `---\s*` of the pattern. -/
theorem run_markerTail (pos : Nat) (rest : List Char) :
    Regex.run (.cat (.char '-') (.cat (.char '-') (.cat (.char '-') (.star reSpace))))
        pos rest (fun e _ => some e) =
      if startsWithMarker rest then
        some (pos + 3 + ((rest.drop 3).takeWhile reSpace).length)
      else none := by
  match rest with
  | [] => simp [Regex.run, startsWithMarker, marker]
  | [a] =>
    by_cases ha : a = '-' <;> simp [Regex.run, startsWithMarker, marker, ha, eq_comm (a := '-')]
  | [a, b] =>
    by_cases ha : a = '-' <;> by_cases hb : b = '-' <;>
      simp [Regex.run, startsWithMarker, marker, ha, hb, eq_comm (a := '-')]
  | a :: b :: c :: r =>
    by_cases ha : a = '-' <;> by_cases hb : b = '-' <;> by_cases hc : c = '-' <;>
      simp [Regex.run, startsWithMarker, marker, ha, hb, hc, starRun_final, eq_comm (a := '-')]

theorem startsWithMarker_iff (s : List Char) :
    startsWithMarker s = true ↔ ∃ r, s = marker ++ r := by
  simp only [startsWithMarker, List.isPrefixOf_iff_prefix]
  constructor
  · rintro ⟨r, hr⟩; exact ⟨r, hr.symm⟩
  · rintro ⟨r, hr⟩; exact ⟨r, hr.symm⟩

theorem startsWithMarker_cons_of_ne {c : Char} (cs : List Char) (hc : c ≠ '-') :
    startsWithMarker (c :: cs) = false := by
  rw [Bool.eq_false_iff]
  intro h
  obtain ⟨r, hr⟩ := (startsWithMarker_iff _).1 h
  simp only [marker, List.cons_append, List.cons.injEq] at hr
  exact hc hr.1

theorem matchAt_separatorRe (pos : Nat) (rest : List Char) :
    separatorRe.matchAt pos rest =
      ((if pos = 0 then afterAnchor pos rest else none).or
        (starRun reSpace afterSpaces pos rest)) := by
  have h : (fun p r => Regex.run
      (.cat (.char '-') (.cat (.char '-') (.cat (.char '-') (.star reSpace))))
        p r (fun e _ => some e)) = afterAnchor := by
    funext p r
    rw [run_markerTail]
    rfl
  have h1 : separatorRe.matchAt pos rest =
      ((if pos = 0 then
          (fun p r => Regex.run
            (.cat (.char '-') (.cat (.char '-') (.cat (.char '-') (.star reSpace))))
              p r (fun e _ => some e)) pos rest
        else none).or
        (starRun reSpace (fun p r => Regex.run (.char '\n') p r
          (fun p r => Regex.run
            (.cat (.char '-') (.cat (.char '-') (.cat (.char '-') (.star reSpace))))
              p r (fun e _ => some e))) pos rest)) := rfl
  rw [h1, h]
  rfl

theorem afterSpaces_newline (pos : Nat) (r : List Char) :
    afterSpaces pos ('\n' :: r) = afterAnchor (pos + 1) r := by
  simp [afterSpaces, Regex.run]

theorem afterSpaces_eq_some {pos : Nat} {rest : List Char} {e : Nat}
    (h : afterSpaces pos rest = some e) :
    ∃ r₂, rest = '\n' :: (marker ++ r₂) ∧ e = pos + 4 + (r₂.takeWhile reSpace).length := by
  cases rest with
  | nil => simp [afterSpaces, Regex.run] at h
  | cons c cs =>
    by_cases hc : c = '\n'
    · subst hc
      rw [afterSpaces_newline] at h
      unfold afterAnchor at h
      split at h
      · rename_i hm
        obtain ⟨r₂, hr₂⟩ := (startsWithMarker_iff cs).1 hm
        subst hr₂
        refine ⟨r₂, rfl, ?_⟩
        simp only [Option.some.injEq] at h
        rw [← h]
        simp [marker]
      · cases h
    · simp [afterSpaces, Regex.run, hc] at h

theorem gap_complete (ws : List Char) (hws : ∀ c ∈ ws, reSpace c = true) (r₂ : List Char) :
    ∀ pos, starRun reSpace afterSpaces pos (ws ++ '\n' :: (marker ++ r₂)) =
      some (pos + ws.length + 4 + (r₂.takeWhile reSpace).length) := by
  induction ws with
  | nil =>
    intro pos
    have h1 : starRun reSpace afterSpaces (pos + 1) (marker ++ r₂) = none := by
      simp [marker, starRun, reSpace, afterSpaces, Regex.run]
    have h2 : afterSpaces pos ('\n' :: (marker ++ r₂)) =
        some (pos + 4 + (r₂.takeWhile reSpace).length) := by
      rw [afterSpaces_newline]
      simp [afterAnchor, startsWithMarker, marker]
    show starRun reSpace afterSpaces pos ('\n' :: (marker ++ r₂)) = _
    rw [starRun, if_pos (by decide), h1, h2]
    simp
  | cons w ws ih =>
    intro pos
    have hw : reSpace w = true := hws w (by simp)
    show starRun reSpace afterSpaces pos (w :: (ws ++ '\n' :: (marker ++ r₂))) = _
    rw [starRun, if_pos hw, ih (fun c hc => hws c (by simp [hc]))]
    simp
    omega

theorem gap_sound (rest : List Char) :
    ∀ pos e, starRun reSpace afterSpaces pos rest = some e →
      ∃ ws r₂, rest = ws ++ '\n' :: (marker ++ r₂) ∧ (∀ c ∈ ws, reSpace c = true) ∧
        e = pos + ws.length + 4 + (r₂.takeWhile reSpace).length := by
  induction rest with
  | nil =>
    intro pos e h
    simp [starRun, afterSpaces, Regex.run] at h
  | cons c cs ih =>
    intro pos e h
    have hdirect : afterSpaces pos (c :: cs) = some e →
        ∃ ws r₂, c :: cs = ws ++ '\n' :: (marker ++ r₂) ∧ (∀ c ∈ ws, reSpace c = true) ∧
          e = pos + ws.length + 4 + (r₂.takeWhile reSpace).length := by
      intro h'
      obtain ⟨r₂, hr, he⟩ := afterSpaces_eq_some h'
      exact ⟨[], r₂, by simpa using hr, by simp, by simpa using he⟩
    by_cases hc : reSpace c = true
    · rw [starRun, if_pos hc] at h
      cases hrec : starRun reSpace afterSpaces (pos + 1) cs with
      | none =>
        rw [hrec] at h
        exact hdirect (by simpa using h)
      | some e' =>
        rw [hrec] at h
        simp only [Option.or_some, Option.some.injEq] at h
        subst h
        obtain ⟨ws, r₂, hr, hws, he⟩ := ih _ _ hrec
        refine ⟨c :: ws, r₂, by simp [hr], ?_, ?_⟩
        · intro x hx
          rcases List.mem_cons.1 hx with h | h
          · rw [h]; exact hc
          · exact hws x h
        · simp only [List.length_cons]
          omega
    · rw [starRun, if_neg hc] at h
      exact hdirect h

theorem matchAt_nil (pos : Nat) : separatorRe.matchAt pos [] = none := by
  rw [matchAt_separatorRe]
  simp [afterAnchor, startsWithMarker, marker, starRun, afterSpaces, Regex.run]

theorem matchAt_start (r₂ : List Char) :
    separatorRe.matchAt 0 (marker ++ r₂) = some (3 + (r₂.takeWhile reSpace).length) := by
  rw [matchAt_separatorRe]
  simp [afterAnchor, startsWithMarker, marker]

theorem matchAt_gap (pos : Nat) (ws : List Char) (hws : ∀ c ∈ ws, reSpace c = true)
    (r₂ : List Char) :
    separatorRe.matchAt pos (ws ++ '\n' :: (marker ++ r₂)) =
      some (pos + ws.length + 4 + (r₂.takeWhile reSpace).length) := by
  rw [matchAt_separatorRe, gap_complete ws hws]
  have h : afterAnchor pos (ws ++ '\n' :: (marker ++ r₂)) = none := by
    unfold afterAnchor
    rw [if_neg]
    cases ws with
    | nil => simp [startsWithMarker, marker]
    | cons w ws =>
      have := startsWithMarker_cons_of_ne (ws ++ '\n' :: (marker ++ r₂))
        (reSpace_ne_dash (hws w (by simp)))
      simp [this]
  split <;> simp [h]

theorem matchAt_sound {pos : Nat} {rest : List Char} {e : Nat}
    (h : separatorRe.matchAt pos rest = some e) :
    (pos = 0 ∧ ∃ r₂, rest = marker ++ r₂ ∧ e = 3 + (r₂.takeWhile reSpace).length) ∨
    (∃ ws r₂, rest = ws ++ '\n' :: (marker ++ r₂) ∧ (∀ c ∈ ws, reSpace c = true) ∧
      e = pos + ws.length + 4 + (r₂.takeWhile reSpace).length) := by
  rw [matchAt_separatorRe] at h
  by_cases hp : pos = 0
  · subst hp
    by_cases hm : startsWithMarker rest = true
    · left
      obtain ⟨r₂, hr⟩ := (startsWithMarker_iff rest).1 hm
      subst hr
      refine ⟨rfl, r₂, rfl, ?_⟩
      simp [afterAnchor, startsWithMarker, marker] at h
      exact h.symm
    · right
      simp only [afterAnchor, hm, if_true] at h
      exact gap_sound rest 0 e (by simpa using h)
  · right
    simp only [hp, if_false] at h
    exact gap_sound rest pos e (by simpa using h)

theorem cutScan_nil (sw l : Bool) (cur : List Char) : cutScan sw l cur [] = [cur] := by
  rw [cutScan]

theorem cutScan_cut (sw : Bool) (cur r : List Char) :
    cutScan sw true cur (marker ++ r) =
      cur :: cutScan sw false [] (if sw then r.dropWhile reSpace else r) := by
  show cutScan sw true cur ('-' :: '-' :: '-' :: r) = _
  rw [cutScan]
  simp [startsWithMarker, marker]

theorem cutScan_push (sw l : Bool) (cur : List Char) (c : Char) (cs : List Char)
    (h : ¬(l = true ∧ startsWithMarker (c :: cs) = true)) :
    cutScan sw l cur (c :: cs) = cutScan sw (c == '\n') (cur ++ [c]) cs := by
  rw [cutScan]
  have : (l && startsWithMarker (c :: cs)) = false := by
    rw [Bool.eq_false_iff]
    simpa using h
  simp [this]

theorem endFlag_cons (l : Bool) (w : Char) (ws : List Char) :
    endFlag l (w :: ws) = endFlag (w == '\n') ws := by
  cases ws with
  | nil => simp [endFlag]
  | cons x xs =>
    simp only [endFlag, List.getLast?_cons_cons]
    rw [List.getLast?_eq_getLast (x :: xs) (List.cons_ne_nil x xs)]

theorem cutScan_push_list (sw : Bool) (ws r : List Char) (hws : ∀ c ∈ ws, c ≠ '-') :
    ∀ (l : Bool) (cur : List Char),
      cutScan sw l cur (ws ++ r) = cutScan sw (endFlag l ws) (cur ++ ws) r := by
  induction ws with
  | nil => intro l cur; simp [endFlag]
  | cons w ws ih =>
    intro l cur
    have hw : w ≠ '-' := hws w (by simp)
    rw [List.cons_append, cutScan_push _ _ _ _ _
      (by simp [startsWithMarker_cons_of_ne _ hw]),
      ih (fun c hc => hws c (by simp [hc])), endFlag_cons]
    simp

theorem endFlag_append_newline (l : Bool) (ws : List Char) :
    endFlag l (ws ++ ['\n']) = true := by
  simp [endFlag]

theorem Sync.no_cut {pos : Nat} {l : Bool} {c : Char} {cs : List Char}
    (hs : Sync pos l (c :: cs)) (hm : separatorRe.matchAt pos (c :: cs) = none) :
    ¬(l = true ∧ startsWithMarker (c :: cs) = true) := by
  rintro ⟨hl, hmark⟩
  have hp := hs.2 hl hmark
  obtain ⟨r₂, hr⟩ := (startsWithMarker_iff _).1 hmark
  rw [hp, hr, matchAt_start] at hm
  cases hm

theorem Sync.step {pos : Nat} {c : Char} {cs : List Char}
    (hm : separatorRe.matchAt pos (c :: cs) = none) :
    Sync (pos + 1) (c == '\n') cs := by
  refine ⟨fun h => by omega, ?_⟩
  intro hc hmark
  exfalso
  have hc' : c = '\n' := by simpa using hc
  obtain ⟨r₂, hr⟩ := (startsWithMarker_iff _).1 hmark
  have := matchAt_gap pos [] (by simp) r₂
  rw [hc', hr] at hm
  simp only [List.nil_append] at this
  rw [this] at hm
  cases hm

theorem search_none (rest : List Char) :
    ∀ (pos : Nat) (l : Bool) (cur : List Char), Sync pos l rest →
      separatorRe.search pos rest = none → cutScan true l cur rest = [cur ++ rest] := by
  induction rest with
  | nil => intro pos l cur _ _; simp [cutScan_nil]
  | cons c cs ih =>
    intro pos l cur hs h
    rw [Regex.search] at h
    cases hm : separatorRe.matchAt pos (c :: cs) with
    | some e => rw [hm] at h; cases h
    | none =>
      rw [hm] at h
      rw [cutScan_push _ _ _ _ _ (hs.no_cut hm), ih _ _ _ (Sync.step hm) h]
      simp

theorem search_some (rest : List Char) :
    ∀ (pos : Nat) (l : Bool) (s e : Nat), Sync pos l rest →
      separatorRe.search pos rest = some (s, e) →
      ∃ mid matched rest' w, rest = mid ++ matched ++ rest' ∧ s = pos + mid.length ∧
        e = s + matched.length ∧ 0 < matched.length ∧ (∀ c ∈ w, reSpace c = true) ∧
        ∀ cur, cutScan true l cur rest = (cur ++ mid ++ w) :: cutScan true false [] rest' := by
  induction rest with
  | nil =>
    intro pos l s e _ h
    rw [Regex.search, matchAt_nil] at h
    cases h
  | cons c cs ih =>
    intro pos l s e hs h
    rw [Regex.search] at h
    cases hm : separatorRe.matchAt pos (c :: cs) with
    | some e₀ =>
      rw [hm] at h
      simp only [Option.some.injEq, Prod.mk.injEq] at h
      obtain ⟨rfl, rfl⟩ := h
      rcases matchAt_sound hm with ⟨hp, r₂, hr, he⟩ | ⟨ws, r₂, hr, hws, he⟩
      · have hl : l = true := hs.1 hp
        refine ⟨[], marker ++ r₂.takeWhile reSpace, r₂.dropWhile reSpace, [], ?_, by simp,
          ?_, by simp [marker], by simp, ?_⟩
        · rw [hr]; simp
        · rw [he, hp]; simp [marker]; omega
        · intro cur
          rw [hr, hl, cutScan_cut]
          simp
      · refine ⟨[], ws ++ '\n' :: (marker ++ r₂.takeWhile reSpace), r₂.dropWhile reSpace,
          ws ++ ['\n'], ?_, by simp, ?_, by simp, ?_, ?_⟩
        · rw [hr]; simp
        · rw [he]; simp [marker]; omega
        · intro x hx
          rcases List.mem_append.1 hx with h | h
          · exact hws x h
          · simp only [List.mem_singleton] at h
            subst h
            decide
        · intro cur
          have hne : ∀ x ∈ ws ++ ['\n'], x ≠ '-' := by
            intro x hx
            rcases List.mem_append.1 hx with h | h
            · exact reSpace_ne_dash (hws x h)
            · simp only [List.mem_singleton] at h
              subst h
              decide
          have hsplit : c :: cs = (ws ++ ['\n']) ++ (marker ++ r₂) := by
            rw [hr]; simp
          rw [hsplit, cutScan_push_list _ _ _ hne, endFlag_append_newline, cutScan_cut]
          simp
    | none =>
      rw [hm] at h
      obtain ⟨mid, matched, rest', w, hr, hs', he, hpos, hw, hcut⟩ :=
        ih _ _ _ _ (Sync.step hm) h
      refine ⟨c :: mid, matched, rest', w, by simp [hr], ?_, he, hpos, hw, ?_⟩
      · simp only [List.length_cons]; omega
      · intro cur
        rw [cutScan_push _ _ _ _ _ (hs.no_cut hm), hcut]
        simp

theorem slice_head (pre₀ cur mid tail : List Char) :
    slice (pre₀ ++ cur ++ (mid ++ tail)) pre₀.length (pre₀.length + cur.length + mid.length) =
      cur ++ mid := by
  unfold slice
  have h1 : (pre₀ ++ cur ++ (mid ++ tail)).drop pre₀.length = (cur ++ mid) ++ tail := by
    rw [List.append_assoc pre₀, List.drop_left' rfl]
    simp
  have h2 : pre₀.length + cur.length + mid.length - pre₀.length = (cur ++ mid).length := by
    simp only [List.length_append]
    omega
  rw [h1, h2, List.take_left' rfl]

theorem splitPieces_cutScan :
    ∀ (fuel : Nat) (rest pre₀ cur : List Char) (l : Bool) (prev : Option Nat) (endPos : Nat),
      rest.length < fuel → Sync (pre₀.length + cur.length) l rest →
      endPos < (pre₀ ++ cur ++ rest).length →
      List.Forall₂ TrailingSpace
        (splitPieces (pre₀ ++ cur ++ rest)
          (allMatches separatorRe (pre₀ ++ cur ++ rest) fuel (pre₀.length + cur.length) prev)
          pre₀.length endPos)
        (cutScan true l cur rest) := by
  intro fuel
  induction fuel with
  | zero => intro rest _ _ _ _ _ h; omega
  | succ fuel ih =>
    intro rest pre₀ cur l prev endPos hfuel hsync hend
    have hdrop : (pre₀ ++ cur ++ rest).drop (pre₀.length + cur.length) = rest :=
      List.drop_left' (by simp)
    have hle : pre₀.length + cur.length ≤ (pre₀ ++ cur ++ rest).length := by
      simp only [List.length_append]; omega
    rw [allMatches, if_pos hle, hdrop]
    cases hsearch : separatorRe.search (pre₀.length + cur.length) rest with
    | none =>
      have hne : endPos ≠ (pre₀ ++ cur ++ rest).length := by omega
      have hd : (pre₀ ++ cur ++ rest).drop pre₀.length = cur ++ rest := by
        rw [List.append_assoc, List.drop_left' rfl]
      simp only [splitPieces, hne, ne_eq, not_false_eq_true, if_true, hd]
      rw [search_none rest _ l cur hsync hsearch]
      exact List.Forall₂.cons ⟨[], by simp, by simp⟩ List.Forall₂.nil
    | some m =>
      obtain ⟨s, e⟩ := m
      obtain ⟨mid, matched, rest', w, hr, hs, he, hpos, hw, hcut⟩ :=
        search_some rest _ l s e hsync hsearch
      subst hr
      have hepos : e ≠ pre₀.length + cur.length := by omega
      have he0 : e ≠ 0 := by omega
      simp only [hepos, if_false, splitPieces, he0, ne_eq, not_false_eq_true, if_true,
        List.singleton_append]
      rw [hcut cur]
      refine List.Forall₂.cons ⟨w, hw, ?_⟩ ?_
      · rw [hs, List.append_assoc mid, slice_head]
      · have htext : pre₀ ++ cur ++ (mid ++ matched ++ rest') =
            (pre₀ ++ cur ++ mid ++ matched) ++ [] ++ rest' := by simp
        have hlen : e = (pre₀ ++ cur ++ mid ++ matched).length + ([] : List Char).length := by
          simp only [List.length_append, List.length_nil]
          omega
        have := ih rest' (pre₀ ++ cur ++ mid ++ matched) [] false (some e) s
          (by simp only [List.length_append] at hfuel; omega)
          ⟨fun h => by rw [← hlen] at h; omega, fun h => by cases h⟩
          (by rw [← htext]; simp only [List.length_append]; omega)
        have hlen' : (pre₀ ++ cur ++ mid ++ matched).length = e := by
          simp only [List.length_append]
          omega
        rw [← htext, ← hlen, hlen'] at this
        exact this

theorem TrimSpace_append_space (a w : List Char) (hw : ∀ c ∈ w, IsSpace c = true) :
    TrimSpace (a ++ w) = TrimSpace a := by
  unfold TrimSpace
  rw [List.dropWhile_append]
  split
  · rename_i h
    rw [List.isEmpty_iff] at h
    rw [h, (List.dropWhile_eq_nil_iff).2 hw]
  · rw [List.reverse_append, List.dropWhile_append_of_pos (by simpa using hw)]

theorem TrimSpace_space_append (w a : List Char) (hw : ∀ c ∈ w, IsSpace c = true) :
    TrimSpace (w ++ a) = TrimSpace a := by
  unfold TrimSpace
  rw [List.dropWhile_append_of_pos hw]

theorem map_TrimSpace_of_trailing {xs ys : List (List Char)}
    (h : List.Forall₂ TrailingSpace xs ys) : xs.map TrimSpace = ys.map TrimSpace := by
  induction h with
  | nil => rfl
  | cons hab _ ih =>
    obtain ⟨w, hw, rfl⟩ := hab
    simp only [List.map_cons, ih]
    rw [TrimSpace_append_space _ _ (fun c hc => IsSpace_of_reSpace (hw c hc))]

/-- The fragments of the regular-expression split and those of the scan that
swallows the `\s` run behind every cut are the same once trimmed. -/
theorem splitDocs_trim_eq_cutScan (configData : List Char) :
    (splitDocs configData).map TrimSpace =
      (cutScan true true [] (TrimSpace configData)).map TrimSpace := by
  unfold splitDocs Regex.Split
  generalize TrimSpace configData = text
  by_cases ht : text.length = 0
  · have : text = [] := List.length_eq_zero.1 ht
    subst this
    simp [cutScan_nil]
  · rw [if_neg ht]
    have := splitPieces_cutScan (text.length + 1) text [] [] true none 0 (by omega)
      ⟨fun _ => rfl, fun _ _ => rfl⟩ (by simp; omega)
    simp only [List.nil_append, List.length_nil, Nat.add_zero] at this
    exact map_TrimSpace_of_trailing this

theorem cutScan_ne_nil (sw : Bool) (rest : List Char) :
    ∀ (l : Bool) (cur : List Char), cutScan sw l cur rest ≠ [] := by
  induction rest with
  | nil => intro l cur; simp [cutScan_nil]
  | cons c cs ih =>
    intro l cur
    by_cases h : l = true ∧ startsWithMarker (c :: cs) = true
    · obtain ⟨hl, hm⟩ := h
      obtain ⟨r, hr⟩ := (startsWithMarker_iff _).1 hm
      rw [hr, hl, cutScan_cut]
      simp
    · rw [cutScan_push _ _ _ _ _ h]
      exact ih _ _

theorem cutScan_no_marker (sw : Bool) (rest : List Char) :
    ∀ (l : Bool) (cur : List Char), hasLineStartMarker l rest = false →
      cutScan sw l cur rest = [cur ++ rest] := by
  induction rest with
  | nil => intro l cur _; simp [cutScan_nil]
  | cons c cs ih =>
    intro l cur h
    simp only [hasLineStartMarker, Bool.or_eq_false_iff, Bool.and_eq_false_iff] at h
    rw [cutScan_push _ _ _ _ _ (by
      rintro ⟨hl, hm⟩
      rcases h.1 with h1 | h1
      · rw [hl] at h1; cases h1
      · rw [hm] at h1; cases h1), ih _ _ h.2]
    simp

theorem search_eq_none_of_no_marker (rest : List Char) (pos : Nat) (l : Bool)
    (hs : Sync pos l rest) (h : hasLineStartMarker l rest = false) :
    separatorRe.search pos rest = none := by
  cases hsearch : separatorRe.search pos rest with
  | none => rfl
  | some m =>
    obtain ⟨s, e⟩ := m
    obtain ⟨mid, matched, rest', w, _, _, _, _, _, hcut⟩ := search_some rest pos l s e hs hsearch
    have h1 := hcut []
    rw [cutScan_no_marker true rest l [] h] at h1
    simp only [List.cons.injEq] at h1
    exact absurd h1.2.symm (cutScan_ne_nil _ _ _ _)

/-- Without a `---` at a line start the regular expression matches nowhere and the
split returns the text as its one fragment. -/
theorem Split_no_marker (text : List Char) (h : hasLineStartMarker true text = false) :
    separatorRe.Split text = [text] := by
  unfold Regex.Split
  by_cases ht : text.length = 0
  · rw [if_pos ht, List.length_eq_zero.1 ht]
  · rw [if_neg ht, allMatches, if_pos (Nat.zero_le _)]
    have hs := search_eq_none_of_no_marker text 0 true ⟨fun _ => rfl, fun _ _ => rfl⟩ h
    simp only [List.drop_zero, hs, splitPieces]
    rw [if_pos (fun h0 => ht h0.symm)]

theorem markersFollowText_dropWhile (s : List Char) (h : markersFollowText false s = true) :
    markersFollowText false (s.dropWhile IsSpace) = true := by
  induction s with
  | nil => simpa using h
  | cons c cs ih =>
    by_cases hc : IsSpace c = true
    · rw [List.dropWhile_cons_of_pos hc]
      apply ih
      simp only [markersFollowText, Bool.and_eq_true] at h
      have h2 := h.2
      simp only [hc, Bool.not_true, Bool.or_false, ite_self] at h2
      exact h2
    · rw [List.dropWhile_cons_of_neg hc]
      exact h

theorem startsWithMarker_append {a : List Char} (b : List Char)
    (h : startsWithMarker a = true) : startsWithMarker (a ++ b) = true := by
  obtain ⟨r, hr⟩ := (startsWithMarker_iff a).1 h
  exact (startsWithMarker_iff _).2 ⟨r ++ b, by rw [hr, List.append_assoc]⟩

theorem markersFollowText_of_append (a b : List Char) :
    ∀ seen, markersFollowText seen (a ++ b) = true → markersFollowText seen a = true := by
  induction a with
  | nil => intro seen _; rfl
  | cons c cs ih =>
    intro seen h
    simp only [List.cons_append, markersFollowText, Bool.and_eq_true, Bool.or_eq_true,
      Bool.not_eq_true'] at h ⊢
    refine ⟨?_, ih _ h.2⟩
    rcases h.1 with h1 | h1
    · left
      rw [Bool.eq_false_iff] at h1 ⊢
      intro hm
      exact h1 (startsWithMarker_append b hm)
    · exact Or.inr h1

theorem TrimSpace_initial (s : List Char) : TrimSpace s <+: s.dropWhile IsSpace := by
  unfold TrimSpace
  have h := List.dropWhile_suffix (l := (s.dropWhile IsSpace).reverse) IsSpace
  simpa using List.reverse_prefix.2 h

theorem no_marker_of_markersFollowText (t : List Char) :
    ∀ (seen l : Bool), (l = true → seen = false) → markersFollowText seen t = true →
      hasLineStartMarker l t = false := by
  induction t with
  | nil => intro _ _ _ _; rfl
  | cons c cs ih =>
    intro seen l hl h
    simp only [markersFollowText, Bool.and_eq_true, Bool.or_eq_true, Bool.not_eq_true'] at h
    simp only [hasLineStartMarker, Bool.or_eq_false_iff, Bool.and_eq_false_iff]
    refine ⟨?_, ih _ _ ?_ h.2⟩
    · rcases h.1 with h1 | h1
      · exact Or.inr h1
      · left
        cases l with
        | false => rfl
        | true => rw [hl rfl] at h1; cases h1
    · intro hc
      have : c = '\n' := by simpa using hc
      simp [this]

theorem PrecededOnLine_cons (seen : Bool) (c : Char) (pre : List Char) :
    PrecededOnLine seen (c :: pre) ↔
      PrecededOnLine (if c = '\n' then false else seen || !IsSpace c) pre := by
  constructor
  · rintro (⟨hs, hn⟩ | ⟨a, x, b, hpre, hx, hb⟩)
    · have hc : c ≠ '\n' := fun h => hn (by simp [h])
      have hp : '\n' ∉ pre := fun h => hn (by simp [h])
      left
      simp [hc, hs, hp]
    · cases a with
      | nil =>
        simp only [List.nil_append, List.cons.injEq] at hpre
        obtain ⟨rfl, rfl⟩ := hpre
        have hc : c ≠ '\n' := by
          rintro rfl
          exact absurd hx (by decide)
        left
        simp [hc, hx, hb]
      | cons a₀ a =>
        simp only [List.cons_append, List.cons.injEq] at hpre
        exact Or.inr ⟨a, x, b, hpre.2, hx, hb⟩
  · rintro (⟨hs, hn⟩ | ⟨a, x, b, hpre, hx, hb⟩)
    · by_cases hc : c = '\n'
      · simp [hc] at hs
      · simp only [hc, if_false, Bool.or_eq_true, Bool.not_eq_true'] at hs
        rcases hs with hs | hs
        · left
          refine ⟨hs, ?_⟩
          intro h
          rcases List.mem_cons.1 h with h | h
          · exact hc h.symm
          · exact hn h
        · exact Or.inr ⟨[], c, pre, rfl, hs, hn⟩
    · exact Or.inr ⟨c :: a, x, b, by simp [hpre], hx, hb⟩

theorem markersFollowText_iff (t : List Char) :
    ∀ seen, markersFollowText seen t = true ↔
      ∀ pre post, t = pre ++ marker ++ post → PrecededOnLine seen pre := by
  induction t with
  | nil =>
    intro seen
    simp only [markersFollowText, true_iff]
    intro pre post h
    have := congrArg List.length h
    simp [marker] at this
    omega
  | cons c cs ih =>
    intro seen
    simp only [markersFollowText, Bool.and_eq_true, Bool.or_eq_true, Bool.not_eq_true']
    constructor
    · rintro ⟨h1, h2⟩ pre post hpre
      cases pre with
      | nil =>
        have hm : startsWithMarker (c :: cs) = true :=
          (startsWithMarker_iff _).2 ⟨post, by simpa using hpre⟩
        rcases h1 with h1 | h1
        · rw [hm] at h1; cases h1
        · exact Or.inl ⟨h1, by simp⟩
      | cons p pre =>
        simp only [List.cons_append, List.cons.injEq] at hpre
        obtain ⟨rfl, hcs⟩ := hpre
        exact (PrecededOnLine_cons _ _ _).2 ((ih _).1 h2 pre post (by simpa using hcs))
    · intro h
      constructor
      · by_cases hm : startsWithMarker (c :: cs) = true
        · obtain ⟨r, hr⟩ := (startsWithMarker_iff _).1 hm
          rcases h [] r (by simpa using hr) with ⟨hs, _⟩ | ⟨a, x, b, hpre, _, _⟩
          · exact Or.inr hs
          · simp at hpre
        · exact Or.inl (by simpa using hm)
      · apply (ih _).2
        intro pre post hcs
        exact (PrecededOnLine_cons _ _ _).1 (h (c :: pre) post (by simp [hcs]))

theorem markersInsideLines_iff (s : List Char) :
    MarkersInsideLines s ↔ markersFollowText false s = true :=
  (markersFollowText_iff s false).symm

theorem startsWithMarker_line (line rest : List Char) :
    startsWithMarker (line ++ '\n' :: rest) = startsWithMarker line := by
  match line with
  | [] => simp [startsWithMarker, marker, List.isPrefixOf]
  | [a] => by_cases ha : a = '-' <;> simp [startsWithMarker, marker, List.isPrefixOf, ha]
  | [a, b] =>
    by_cases ha : a = '-' <;> by_cases hb : b = '-' <;>
      simp [startsWithMarker, marker, List.isPrefixOf, ha, hb]
  | a :: b :: c :: r => simp [startsWithMarker, marker, List.isPrefixOf]

theorem hasLineStartMarker_lines (t : List Char) :
    ∀ l, hasLineStartMarker l t =
      ((l && startsWithMarker ((splitNewline t).headD [])) ||
        (splitNewline t).tail.any startsWithMarker) := by
  induction t with
  | nil => intro l; simp [hasLineStartMarker, splitNewline, startsWithMarker, marker]
  | cons c cs ih =>
    intro l
    by_cases hc : c = '\n'
    · subst hc
      cases hsp : splitNewline cs with
      | nil => exact absurd hsp (splitNewline_ne_nil cs)
      | cons first others =>
        have := ih true
        rw [hsp] at this
        simp only [hasLineStartMarker, splitNewline, if_true, hsp, List.headD_cons,
          List.tail_cons, List.any_cons]
        rw [beq_self_eq_true, this]
        simp [startsWithMarker, marker]
    · cases hsp : splitNewline cs with
      | nil => exact absurd hsp (splitNewline_ne_nil cs)
      | cons first others =>
        have hih := ih false
        rw [hsp] at hih
        have hm : startsWithMarker (c :: cs) = startsWithMarker (c :: first) := by
          have hjoin := intercalate_splitNewline cs
          rw [hsp] at hjoin
          cases others with
          | nil =>
            simp only [List.intercalate, List.intersperse, List.flatten_cons,
              List.flatten_nil, List.append_nil] at hjoin
            rw [hjoin]
          | cons o os =>
            have : cs = first ++ '\n' :: List.intercalate ['\n'] (o :: os) := by
              rw [← hjoin]
              simp [List.intercalate, List.intersperse]
            rw [this]
            exact startsWithMarker_line (c :: first) _
        have hb : (c == '\n') = false := by simpa using hc
        simp only [hasLineStartMarker, splitNewline, hc, if_false, hsp, List.headD_cons,
          List.tail_cons, hb, hih, hm]
        simp

theorem hasLineStartMarker_eq_any (t : List Char) :
    hasLineStartMarker true t = (splitNewline t).any startsWithMarker := by
  rw [hasLineStartMarker_lines]
  cases hsp : splitNewline t with
  | nil => exact absurd hsp (splitNewline_ne_nil t)
  | cons first others => simp

/-- Claim C3. When every occurrence of `---` in the input is preceded on its own line
by a non-space character, the splitter of `ParseConfigFromData` (lines 127-128)
makes no cut: the fragments `docs` are exactly one, the trimmed input. -/
theorem marker_inside_value_no_cut (configData : List Char)
    (h : MarkersInsideLines configData) :
    splitDocs configData = [TrimSpace configData] := by
  unfold splitDocs
  apply Split_no_marker
  obtain ⟨b, hb⟩ := TrimSpace_initial configData
  have h1 := markersFollowText_dropWhile configData ((markersInsideLines_iff _).1 h)
  rw [← hb] at h1
  exact no_marker_of_markersFollowText _ false true (fun _ => rfl)
    (markersFollowText_of_append _ b false h1)

theorem marker_inside_value_no_cut_witness :
    MarkersInsideLines "  kind: X\nname: a---b\n".data ∧
    splitDocs "  kind: X\nname: a---b\n".data = ["kind: X\nname: a---b".data] :=
  ⟨(markersInsideLines_iff _).2 (by decide),
   marker_inside_value_no_cut "  kind: X\nname: a---b\n".data
     ((markersInsideLines_iff _).2 (by decide))⟩

theorem TrimSpace_idem (s : List Char) : TrimSpace (TrimSpace s) = TrimSpace s := by
  have hfix : (TrimSpace s).dropWhile IsSpace = TrimSpace s := by
    obtain ⟨b, hb⟩ := TrimSpace_initial s
    cases ht : TrimSpace s with
    | nil => rfl
    | cons c cs =>
      rw [ht] at hb
      have hd : (s.dropWhile IsSpace).dropWhile IsSpace = s.dropWhile IsSpace :=
        List.dropWhile_idempotent _ _
      rw [← hb] at hd
      by_cases hc : IsSpace c = true
      · exfalso
        simp only [List.cons_append, List.dropWhile_cons_of_pos hc] at hd
        have := (List.dropWhile_suffix (l := cs ++ b) IsSpace).length_le
        rw [hd] at this
        simp at this
      · rw [List.dropWhile_cons_of_neg hc]
  show (((TrimSpace s).dropWhile IsSpace).reverse.dropWhile IsSpace).reverse = TrimSpace s
  rw [hfix]
  show (((((s.dropWhile IsSpace).reverse.dropWhile IsSpace).reverse).reverse.dropWhile
    IsSpace).reverse) = ((s.dropWhile IsSpace).reverse.dropWhile IsSpace).reverse
  rw [List.reverse_reverse, List.dropWhile_idempotent]

/-- Claim C2, amended. When no line of the trimmed input begins with `---`, the
splitter yields exactly one document, the trimmed input, or no document when the
input is empty or white space only. -/
theorem no_line_start_marker_one_document (configData : List Char)
    (h : ∀ line ∈ splitNewline (TrimSpace configData), startsWithMarker line = false) :
    documents configData =
      if TrimSpace configData = [] then [] else [TrimSpace configData] := by
  have h' : hasLineStartMarker true (TrimSpace configData) = false := by
    rw [hasLineStartMarker_eq_any, Bool.eq_false_iff]
    intro hany
    obtain ⟨line, hline, hm⟩ := List.any_eq_true.1 hany
    rw [h line hline] at hm
    cases hm
  unfold documents splitDocs
  rw [Split_no_marker _ h']
  simp only [List.map_cons, List.map_nil, TrimSpace_idem]
  split <;> simp [*]

theorem no_line_start_marker_one_document_witness :
    (∀ line ∈ splitNewline (TrimSpace "a\n  ---\nb: c---d\n".data),
      startsWithMarker line = false) ∧
    documents "a\n  ---\nb: c---d\n".data = ["a\n  ---\nb: c---d".data] := by
  refine ⟨by decide, ?_⟩
  rw [no_line_start_marker_one_document _ (by decide)]
  decide

/-- Claim C2 as stated fails. The input `a\n---x` has no line whose trimmed content
is exactly `---`, yet the splitter cuts at the line `---x` and yields two documents,
`a` and `x`, not the trimmed input; the same happens at `----`. -/
theorem separator_with_trailing_text_cuts :
    ((splitNewline "a\n---x".data).all (fun line => !isSeparatorLine line) = true ∧
      TrimSpace "a\n---x".data = "a\n---x".data ∧
      documents "a\n---x".data = ["a".data, "x".data]) ∧
    ((splitNewline "a\n----\nb".data).all (fun line => !isSeparatorLine line) = true ∧
      TrimSpace "a\n----\nb".data = "a\n----\nb".data ∧
      documents "a\n----\nb".data = ["a".data, "-\nb".data]) := by
  decide

theorem hasAdjacentMarkers_cut (r : List Char) :
    hasAdjacentMarkers true (marker ++ r) = (markerAfterGap r || hasAdjacentMarkers false r) := by
  show hasAdjacentMarkers true ('-' :: '-' :: '-' :: r) = _
  simp [hasAdjacentMarkers, startsWithMarker, marker]

theorem hasAdjacentMarkers_push (l : Bool) (c : Char) (cs : List Char)
    (h : ¬(l = true ∧ startsWithMarker (c :: cs) = true)) :
    hasAdjacentMarkers l (c :: cs) = hasAdjacentMarkers (c == '\n') cs := by
  have : (l && startsWithMarker (c :: cs)) = false := by
    rw [Bool.eq_false_iff]
    simpa using h
  simp [hasAdjacentMarkers, this]

theorem hasAdjacentMarkers_push_list (ws r : List Char) (hws : ∀ c ∈ ws, c ≠ '-') :
    ∀ l, hasAdjacentMarkers l (ws ++ r) = hasAdjacentMarkers (endFlag l ws) r := by
  induction ws with
  | nil => intro l; simp [endFlag]
  | cons w ws ih =>
    intro l
    have hw : w ≠ '-' := hws w (by simp)
    rw [List.cons_append, hasAdjacentMarkers_push _ _ _
      (by simp [startsWithMarker_cons_of_ne _ hw]),
      ih (fun c hc => hws c (by simp [hc])), endFlag_cons]

theorem cutScan_flag (sw : Bool) (l l' : Bool) (cur rest : List Char)
    (h : startsWithMarker rest = false) :
    cutScan sw l cur rest = cutScan sw l' cur rest := by
  cases rest with
  | nil => simp [cutScan_nil]
  | cons c cs =>
    rw [cutScan_push _ l _ _ _ (by simp [h]), cutScan_push _ l' _ _ _ (by simp [h])]

theorem hasAdjacentMarkers_flag (l l' : Bool) (rest : List Char)
    (h : startsWithMarker rest = false) :
    hasAdjacentMarkers l rest = hasAdjacentMarkers l' rest := by
  cases rest with
  | nil => rfl
  | cons c cs =>
    rw [hasAdjacentMarkers_push l _ _ (by simp [h]),
      hasAdjacentMarkers_push l' _ _ (by simp [h])]

theorem endFlag_false_of_getLast (ws : List Char)
    (h : (ws.getLast? == some '\n') = false) : endFlag false ws = false := by
  unfold endFlag
  cases hg : ws.getLast? with
  | none => rfl
  | some c =>
    rw [hg] at h
    simpa using h

/-- Without two adjacent markers, swallowing the white space behind a cut changes
no trimmed fragment. -/
theorem cutScan_swallow (n : Nat) :
    ∀ (rest : List Char), rest.length ≤ n → ∀ (l : Bool) (cur w : List Char),
      (∀ c ∈ w, reSpace c = true) → hasAdjacentMarkers l rest = false →
      (cutScan true l cur rest).map TrimSpace =
        (cutScan false l (w ++ cur) rest).map TrimSpace := by
  induction n with
  | zero =>
    intro rest hlen l cur w hw _
    have : rest = [] := List.length_eq_zero.1 (by omega)
    subst this
    simp [cutScan_nil, TrimSpace_space_append _ _ (fun c hc => IsSpace_of_reSpace (hw c hc))]
  | succ n ih =>
    intro rest hlen l cur w hw hadj
    have hwS : ∀ c ∈ w, IsSpace c = true := fun c hc => IsSpace_of_reSpace (hw c hc)
    cases rest with
    | nil => simp [cutScan_nil, TrimSpace_space_append _ _ hwS]
    | cons c cs =>
      by_cases hcut : l = true ∧ startsWithMarker (c :: cs) = true
      · obtain ⟨hl, hm⟩ := hcut
        obtain ⟨r, hr⟩ := (startsWithMarker_iff _).1 hm
        rw [hr] at hlen hadj ⊢
        subst hl
        rw [hasAdjacentMarkers_cut, Bool.or_eq_false_iff] at hadj
        obtain ⟨hgap, hadj'⟩ := hadj
        have hsplit : r = r.takeWhile reSpace ++ r.dropWhile reSpace :=
          (List.takeWhile_append_dropWhile reSpace r).symm
        have hws : ∀ x ∈ r.takeWhile reSpace, reSpace x = true :=
          fun x hx => (List.mem_takeWhile_imp hx)
        have hne : ∀ x ∈ r.takeWhile reSpace, x ≠ '-' :=
          fun x hx => reSpace_ne_dash (hws x hx)
        have hrlen : (r.dropWhile reSpace).length ≤ n := by
          have h1 := (List.dropWhile_suffix (l := r) reSpace).length_le
          simp only [marker, List.cons_append, List.nil_append, List.length_cons] at hlen
          omega
        -- the scan that does not swallow reads the run as the head of the next fragment
        have hB : cutScan false false [] r =
            cutScan false false (r.takeWhile reSpace) (r.dropWhile reSpace) := by
          conv_lhs => rw [hsplit]
          rw [cutScan_push_list _ _ _ hne]
          simp only [List.nil_append]
          by_cases hm' : startsWithMarker (r.dropWhile reSpace) = true
          · have : ((r.takeWhile reSpace).getLast? == some '\n') = false := by
              simpa [markerAfterGap, hm'] using hgap
            rw [endFlag_false_of_getLast _ this]
          · exact cutScan_flag _ _ _ _ _ (by simpa using hm')
        have hA : hasAdjacentMarkers false (r.dropWhile reSpace) = false := by
          rw [hsplit, hasAdjacentMarkers_push_list _ _ hne] at hadj'
          by_cases hm' : startsWithMarker (r.dropWhile reSpace) = true
          · have : ((r.takeWhile reSpace).getLast? == some '\n') = false := by
              simpa [markerAfterGap, hm'] using hgap
            rwa [endFlag_false_of_getLast _ this] at hadj'
          · rw [hasAdjacentMarkers_flag _ false _ (by simpa using hm')] at hadj'
            exact hadj'
        rw [cutScan_cut, cutScan_cut]
        simp only [if_true, Bool.false_eq_true, if_false, List.map_cons]
        rw [TrimSpace_space_append _ _ hwS, hB]
        have := ih _ hrlen false [] (r.takeWhile reSpace) hws hA
        simp only [List.append_nil] at this
        rw [this]
      · rw [cutScan_push _ _ _ _ _ hcut, cutScan_push _ _ _ _ _ hcut]
        rw [hasAdjacentMarkers_push _ _ _ hcut] at hadj
        have := ih cs (by simp only [List.length_cons] at hlen; omega) (c == '\n')
          (cur ++ [c]) w hw hadj
        rw [this, List.append_assoc]

theorem cutScan_length (rest : List Char) :
    ∀ (l : Bool) (cur : List Char),
      (cutScan false l cur rest).length = countLineStartMarkers l rest + 1 := by
  suffices H : ∀ n (rest : List Char), rest.length ≤ n → ∀ (l : Bool) (cur : List Char),
      (cutScan false l cur rest).length = countLineStartMarkers l rest + 1 from
    H _ rest (Nat.le_refl _)
  intro n
  induction n with
  | zero =>
    intro rest hlen l cur
    have : rest = [] := List.length_eq_zero.1 (by omega)
    subst this
    simp [cutScan_nil, countLineStartMarkers]
  | succ n ih =>
    intro rest hlen l cur
    cases rest with
    | nil => simp [cutScan_nil, countLineStartMarkers]
    | cons c cs =>
      by_cases hcut : l = true ∧ startsWithMarker (c :: cs) = true
      · obtain ⟨hl, hm⟩ := hcut
        obtain ⟨r, hr⟩ := (startsWithMarker_iff _).1 hm
        rw [hr] at hlen ⊢
        subst hl
        have hc : countLineStartMarkers true (marker ++ r) =
            1 + countLineStartMarkers false r := by
          show countLineStartMarkers true ('-' :: '-' :: '-' :: r) = _
          simp [countLineStartMarkers, startsWithMarker, marker]
        rw [cutScan_cut, hc]
        simp only [Bool.false_eq_true, if_false, List.length_cons]
        rw [ih r (by simp only [marker, List.cons_append, List.nil_append,
          List.length_cons] at hlen; omega)]
        omega
      · rw [cutScan_push _ _ _ _ _ hcut]
        have hz : (l && startsWithMarker (c :: cs)) = false := by
          rw [Bool.eq_false_iff]
          simpa using hcut
        simp only [countLineStartMarkers, hz, Bool.false_eq_true, if_false, Nat.zero_add]
        exact ih cs (by simp only [List.length_cons] at hlen; omega) _ _

theorem markerAfterGap_iff (r : List Char) :
    markerAfterGap r = true ↔
      ∃ gap post, r = gap ++ '\n' :: (marker ++ post) ∧ ∀ c ∈ gap, reSpace c = true := by
  constructor
  · intro h
    simp only [markerAfterGap, Bool.and_eq_true, beq_iff_eq] at h
    obtain ⟨hlast, hm⟩ := h
    obtain ⟨gap, hgap⟩ := List.getLast?_eq_some_iff.1 hlast
    obtain ⟨post, hpost⟩ := (startsWithMarker_iff _).1 hm
    refine ⟨gap, post, ?_, ?_⟩
    · rw [← List.takeWhile_append_dropWhile reSpace r, hgap, hpost]
      simp
    · intro c hc
      exact List.mem_takeWhile_imp (p := reSpace) (l := r) (by rw [hgap]; simp [hc])
  · rintro ⟨gap, post, rfl, hgap⟩
    have hall : ∀ c ∈ gap ++ ['\n'], reSpace c = true := by
      intro c hc
      rcases List.mem_append.1 hc with h | h
      · exact hgap c h
      · simp only [List.mem_singleton] at h
        subst h
        decide
    have hsplit : gap ++ '\n' :: (marker ++ post) = (gap ++ ['\n']) ++ (marker ++ post) := by
      simp
    have htw : (gap ++ '\n' :: (marker ++ post)).takeWhile reSpace = gap ++ ['\n'] := by
      rw [hsplit, List.takeWhile_append_of_pos hall]
      simp [marker, List.takeWhile_cons, reSpace]
    have hdw : (gap ++ '\n' :: (marker ++ post)).dropWhile reSpace = marker ++ post := by
      rw [hsplit, List.dropWhile_append_of_pos hall]
      simp [marker, List.dropWhile_cons, reSpace]
    simp only [markerAfterGap, htw, hdw, Bool.and_eq_true, beq_iff_eq]
    exact ⟨by simp, (startsWithMarker_iff _).2 ⟨post, rfl⟩⟩

theorem hasAdjacentMarkers_iff (t : List Char) :
    ∀ l, hasAdjacentMarkers l t = true ↔ AdjacentMarkers l t := by
  induction t with
  | nil =>
    intro l
    simp only [hasAdjacentMarkers, Bool.false_eq_true, false_iff]
    rintro ⟨pre, gap, post, h, _⟩
    have := congrArg List.length h
    simp [marker] at this
    omega
  | cons c cs ih =>
    intro l
    simp only [hasAdjacentMarkers, Bool.or_eq_true, Bool.and_eq_true]
    constructor
    · rintro (⟨⟨hl, hm⟩, hgap⟩ | h)
      · obtain ⟨r, hr⟩ := (startsWithMarker_iff _).1 hm
        have hd : cs.drop 2 = r := by
          simp only [marker, List.cons_append, List.nil_append, List.cons.injEq] at hr
          rw [hr.2]
          rfl
        rw [hd] at hgap
        obtain ⟨gap, post, hrr, hg⟩ := (markerAfterGap_iff r).1 hgap
        refine ⟨[], gap, post, ?_, by simpa [endFlag] using hl, hg⟩
        rw [hr, hrr]
        simp
      · obtain ⟨pre, gap, post, hcs, hflag, hg⟩ := (ih _).1 h
        exact ⟨c :: pre, gap, post, by simp [hcs], by rwa [endFlag_cons], hg⟩
    · rintro ⟨pre, gap, post, ht, hflag, hg⟩
      cases pre with
      | nil =>
        left
        have hl : l = true := by simpa [endFlag] using hflag
        have hm : startsWithMarker (c :: cs) = true :=
          (startsWithMarker_iff _).2 ⟨gap ++ '\n' :: (marker ++ post), by simpa using ht⟩
        have hd : cs.drop 2 = gap ++ '\n' :: (marker ++ post) := by
          simp only [marker, List.nil_append, List.cons_append, List.cons.injEq] at ht
          rw [ht.2]
          rfl
        exact ⟨⟨hl, hm⟩, by rw [hd]; exact (markerAfterGap_iff _).2 ⟨gap, post, rfl, hg⟩⟩
      | cons p pre =>
        right
        simp only [List.cons_append, List.cons.injEq] at ht
        obtain ⟨rfl, hcs⟩ := ht
        rw [endFlag_cons] at hflag
        exact (ih _).2 ⟨pre, gap, post, hcs, hflag, hg⟩

theorem not_adjacentMarkers_iff (t : List Char) :
    ¬AdjacentMarkers true t ↔ hasAdjacentMarkers true t = false := by
  rw [← hasAdjacentMarkers_iff, Bool.not_eq_true]

theorem countLineStartMarkers_lines (t : List Char) :
    ∀ l, countLineStartMarkers l t =
      (if l && startsWithMarker ((splitNewline t).headD []) then 1 else 0) +
        (splitNewline t).tail.countP startsWithMarker := by
  induction t with
  | nil => intro l; simp [countLineStartMarkers, splitNewline, startsWithMarker, marker]
  | cons c cs ih =>
    intro l
    by_cases hc : c = '\n'
    · subst hc
      cases hsp : splitNewline cs with
      | nil => exact absurd hsp (splitNewline_ne_nil cs)
      | cons first others =>
        have := ih true
        rw [hsp] at this
        simp only [countLineStartMarkers, splitNewline, if_true, hsp, List.headD_cons,
          List.tail_cons, List.countP_cons]
        rw [beq_self_eq_true, this]
        simp [startsWithMarker, marker]
        omega
    · cases hsp : splitNewline cs with
      | nil => exact absurd hsp (splitNewline_ne_nil cs)
      | cons first others =>
        have hih := ih false
        rw [hsp] at hih
        have hm : startsWithMarker (c :: cs) = startsWithMarker (c :: first) := by
          have hjoin := intercalate_splitNewline cs
          rw [hsp] at hjoin
          cases others with
          | nil =>
            simp only [List.intercalate, List.intersperse, List.flatten_cons,
              List.flatten_nil, List.append_nil] at hjoin
            rw [hjoin]
          | cons o os =>
            have : cs = first ++ '\n' :: List.intercalate ['\n'] (o :: os) := by
              rw [← hjoin]
              simp [List.intercalate, List.intersperse]
            rw [this]
            exact startsWithMarker_line (c :: first) _
        have hb : (c == '\n') = false := by simpa using hc
        simp only [countLineStartMarkers, splitNewline, hc, if_false, hsp, List.headD_cons,
          List.tail_cons, hb, hih, hm]
        simp

theorem countLineStartMarkers_eq_countP (t : List Char) :
    countLineStartMarkers true t = (splitNewline t).countP startsWithMarker := by
  rw [countLineStartMarkers_lines]
  cases hsp : splitNewline t with
  | nil => exact absurd hsp (splitNewline_ne_nil t)
  | cons first others =>
    simp only [List.headD_cons, Bool.true_and, List.tail_cons, List.countP_cons]
    omega

/-- Claim C1, amended. For every input in which no two `---` markers at line starts are
separated by white space only, the documents `ParseConfigFromData` processes are
those of the reference splitter that cuts the trimmed input at every `---` standing
at the very beginning of a line, trims every fragment and drops the empty ones, in
text order; `k` lines beginning with `---` give `k + 1` fragments. -/
theorem documents_eq_lineStartDocuments (configData : List Char)
    (h : ¬AdjacentMarkers true (TrimSpace configData)) :
    documents configData = lineStartDocuments configData ∧
    (splitDocs configData).length =
      (splitNewline (TrimSpace configData)).countP startsWithMarker + 1 := by
  have h1 := splitDocs_trim_eq_cutScan configData
  have h2 := cutScan_swallow _ (TrimSpace configData) (Nat.le_refl _) true [] [] (by simp)
    ((not_adjacentMarkers_iff _).1 h)
  simp only [List.append_nil] at h2
  constructor
  · unfold documents lineStartDocuments
    rw [h1, h2]
  · have := congrArg List.length (h1.trans h2)
    rw [← countLineStartMarkers_eq_countP]
    simpa [cutScan_length] using this

theorem documents_eq_lineStartDocuments_witness :
    ¬AdjacentMarkers true (TrimSpace "kind: A\n---\nkind: B\n--- \nkind: C\n".data) ∧
    lineStartDocuments "kind: A\n---\nkind: B\n--- \nkind: C\n".data =
      ["kind: A".data, "kind: B".data, "kind: C".data] ∧
    (splitDocs "kind: A\n---\nkind: B\n--- \nkind: C\n".data).length = 2 + 1 := by
  have hna : ¬AdjacentMarkers true
      (TrimSpace "kind: A\n---\nkind: B\n--- \nkind: C\n".data) :=
    (not_adjacentMarkers_iff _).2 (by decide)
  have h := documents_eq_lineStartDocuments "kind: A\n---\nkind: B\n--- \nkind: C\n".data hna
  refine ⟨hna, ?_, ?_⟩
  · rw [← h.1]
    decide
  · rw [h.2]
    decide

/-- Claim C1 as stated fails. With `specDocuments` the reference splitter of the
claim: an indented separator line is a boundary for the reference and none for the
code; of two adjacent separator lines the code leaves the second one in the next
document; a line that begins with `---` and goes on is a boundary for the code and
none for the reference. -/
theorem documents_ne_specDocuments :
    (documents "a\n  ---\nb".data = ["a\n  ---\nb".data] ∧
      specDocuments "a\n  ---\nb".data = ["a".data, "b".data]) ∧
    (documents "a\n---\n---\nb".data = ["a".data, "---\nb".data] ∧
      specDocuments "a\n---\n---\nb".data = ["a".data, "b".data]) ∧
    (documents "a\n---x\nb".data = ["a".data, "x\nb".data] ∧
      specDocuments "a\n---x\nb".data = ["a\n---x\nb".data]) := by
  decide

end Dhctl
